import Mathlib

/-!
Shallow embedding of `src/sfreport/report.py` (Screaming Frog CSV export →
Excel report generator) and proofs of the specification claims.

Conventions of the embedding:
* Python strings are `String` (or `List Char` for the character-level
  helpers); a pandas cell that may be NaN is `Option String` with `none`
  modelling NaN; `str()` applied to a NaN cell yields the string "nan".
* A pandas DataFrame is a list of columns plus a list of rows.
* Raising an exception vs. saving the workbook is modelled with `Except`:
  `Except.error` means `generate_report` raised before `wb.save`, and
  `Except.ok` means the workbook file was written.
* Python `list.sort()` / `sorted()` is modelled by a stable structural
  insertion sort `sortLe`; on the lists sorted by this program (distinct
  keys, or a total order where equal elements are identical values) any
  sorting algorithm agreeing with the order produces the same output.
-/

namespace SFReport

/-! ### Generic association-list helpers (Python `dict`)

A Python `dict` is modelled as an insertion-ordered association list.
`lookupA` is `d[k]` / `k in d`, `insertA` is `d[k] = v` (overwrite in place,
append new keys at the end), `appendA` is `defaultdict(list)`-style
`d[k].append(v)`. -/

def lookupA {α β : Type} [DecidableEq α] : List (α × β) → α → Option β
  | [], _ => none
  | (k, v) :: rest, a => if a = k then some v else lookupA rest a

def insertA {α β : Type} [DecidableEq α] : List (α × β) → α → β → List (α × β)
  | [], k, v => [(k, v)]
  | (k₀, v₀) :: rest, k, v =>
    if k = k₀ then (k₀, v) :: rest else (k₀, v₀) :: insertA rest k v

def appendA {α β : Type} [DecidableEq α] : List (α × List β) → α → β → List (α × List β)
  | [], k, v => [(k, [v])]
  | (k₀, vs) :: rest, k, v =>
    if k = k₀ then (k₀, vs ++ [v]) :: rest else (k₀, vs) :: appendA rest k v

/-- Left fold of `d[k].append(v)` over a list of key/value productions:
the common shape of both `url_issues` in `_load_per_page_issues` and
`fp_to_urls` in `generate_report`. -/
def groupByKeyA {α β : Type} [DecidableEq α] (l : List (α × β)) : List (α × List β) :=
  l.foldl (fun m p => appendA m p.1 p.2) []

/-! ### Stable sort (Python `sorted` / `list.sort`) -/

def insertLe {α : Type} (le : α → α → Bool) (x : α) : List α → List α
  | [] => [x]
  | y :: ys => if le x y then x :: y :: ys else y :: insertLe le x ys

def sortLe {α : Type} (le : α → α → Bool) : List α → List α
  | [] => []
  | x :: xs => insertLe le x (sortLe le xs)

/-! ### Character-level Python string helpers -/

/-- Python `str.replace(old, new, 1)`: replace the first occurrence of
`old` (a nonempty pattern) in `s` by `new`. -/
def replaceFirstL (old new : List Char) : List Char → List Char
  | [] => []
  | c :: rest =>
    if old.isPrefixOf (c :: rest) then new ++ (c :: rest).drop old.length
    else c :: replaceFirstL old new rest

/-- `_normalize_url` (report.py line 46): rewrite a leading lowercase
"http://" to "https://", otherwise return the input unchanged. -/
def normalizeUrl (url : List Char) : List Char :=
  if ("http://".toList).isPrefixOf url then
    replaceFirstL "http://".toList "https://".toList url
  else url

def normalizeUrlS (s : String) : String := ⟨normalizeUrl s.data⟩

/-- Python `str.lower()` (ASCII; the data this program handles is ASCII). -/
def pyLowerS (s : String) : String := ⟨s.data.map Char.toLower⟩

/-- Python `str.strip()` on characters: drop whitespace from both ends. -/
def stripWs (cs : List Char) : List Char :=
  ((cs.dropWhile Char.isWhitespace).reverse.dropWhile Char.isWhitespace).reverse

def stripWsS (s : String) : String := ⟨stripWs s.data⟩

/-- Python `str.strip(chars)`. -/
def stripChars (chars : List Char) (cs : List Char) : List Char :=
  ((cs.dropWhile (· ∈ chars)).reverse.dropWhile (· ∈ chars)).reverse

/-- Python `str.rstrip(chars)`. -/
def rstripChars (chars : List Char) (cs : List Char) : List Char :=
  (cs.reverse.dropWhile (· ∈ chars)).reverse

/-- Bool-valued infix test on character lists. -/
def isInfixL (sub : List Char) : List Char → Bool
  | [] => sub.isEmpty
  | c :: rest => sub.isPrefixOf (c :: rest) || isInfixL sub rest

/-- Python `sub in s` (substring test). -/
def strContains (s sub : String) : Bool := isInfixL sub.data s.data

/-- One step of Python `str.title()`: the boolean records whether the
previous character was alphabetic. -/
def pyTitleGo : Bool → List Char → List Char
  | _, [] => []
  | prevAlpha, c :: rest =>
    (if c.isAlpha then (if prevAlpha then c.toLower else c.toUpper) else c)
      :: pyTitleGo c.isAlpha rest

/-- Python `str.title()` (ASCII). -/
def pyTitleS (s : String) : String := ⟨pyTitleGo false s.data⟩

/-- Python `stem.replace("_", " ")`. -/
def underscoreToSpace (s : String) : String :=
  ⟨s.data.map (fun c => if c = '_' then ' ' else c)⟩

/-- Decimal digit characters of `n` (with `n`-sized fuel, structurally
recursive so that concrete evaluation reduces). -/
def natCharsAux : Nat → Nat → List Char
  | 0, _ => []
  | _ + 1, 0 => []
  | fuel + 1, n + 1 =>
    natCharsAux fuel ((n + 1) / 10) ++ [Char.ofNat ((n + 1) % 10 + 48)]

/-- Python `str(n)` for a natural number. -/
def natChars (n : Nat) : List Char :=
  if n = 0 then ['0'] else natCharsAux n n

/-- `str()` of a possibly-NaN pandas cell: `str(nan)` is "nan". -/
def strDf (v : Option String) : String := v.getD "nan"

/-- `_clean` (report.py line 54): NaN becomes "", and a string whose
lowercase form is "nan" becomes "". -/
def clean (v : Option String) : String :=
  match v with
  | none => ""
  | some s => if pyLowerS s = "nan" then "" else s

/-! ### Data model: unified finding rows -/

/-- One row of the unified per-page table: the dict with keys Type, Issue,
Priority, Details, Description, How To Fix, Help URL built by
`_load_per_page_issues` and `_a11y_to_rows`. -/
structure FindingRow where
  type : String
  issue : String
  priority : String
  details : String
  description : String
  howToFix : String
  helpURL : String
deriving DecidableEq

/-- `tuple(sorted(r.items()))` for a `FindingRow` dict: every such dict has
the same seven keys, whose sorted order is Description, Details, Help URL,
How To Fix, Issue, Priority, Type, so comparing the key/value pair tuples
lexicographically is comparing the value tuples in that key order. -/
def toSortedItems (r : FindingRow) : List String :=
  [r.description, r.details, r.helpURL, r.howToFix, r.issue, r.priority, r.type]

/-- Python string comparison `a < b`: strict lexicographic order on the
code points. -/
def charsLT : List Char → List Char → Bool
  | [], [] => false
  | [], _ :: _ => true
  | _ :: _, [] => false
  | a :: as, b :: bs => if a = b then charsLT as bs else decide (a < b)

/-- Python string comparison `a <= b`. -/
def charsLE : List Char → List Char → Bool
  | [], _ => true
  | _ :: _, [] => false
  | a :: as, b :: bs => if a = b then charsLE as bs else decide (a < b)

def strLT (a b : String) : Bool := charsLT a.data b.data

def strLE (a b : String) : Bool := charsLE a.data b.data

/-- Python tuple comparison (lexicographic, shorter prefix first). -/
def tupLE : List String → List String → Bool
  | [], _ => true
  | _ :: _, [] => false
  | a :: as, b :: bs => if a = b then tupLE as bs else strLT a b

/-- `_fingerprint` (report.py line 411): the canonical sorted list of row
tuples. The Python code returns `repr` of this list; since `repr` is
injective on lists of string tuples, fingerprint equality in the code is
equality of these sorted lists. -/
def fingerprint (rows : List FindingRow) : List (List String) :=
  sortLe tupLE (rows.map toSortedItems)

/-! ### Issue catalog (Issues Overview) and the fuzzy matcher -/

/-- The metadata stored in `overview_lookup` for one catalog entry. -/
structure OverviewMeta where
  priority : String
  description : String
  howToFix : String
  helpURL : String
  issueType : String
deriving DecidableEq

/-- Result of `_match_overview`: the dict always carries a "name"; `meta`
is `some` exactly when enrichment fields are present. -/
structure MatchResult where
  name : String
  meta : Option OverviewMeta
deriving DecidableEq

def metaPriority (mr : MatchResult) : String :=
  match mr.meta with | some m => m.priority | none => ""

def metaDescription (mr : MatchResult) : String :=
  match mr.meta with | some m => m.description | none => ""

def metaHowToFix (mr : MatchResult) : String :=
  match mr.meta with | some m => m.howToFix | none => ""

def metaHelpURL (mr : MatchResult) : String :=
  match mr.meta with | some m => m.helpURL | none => ""

/-- Python `set(key.split())`: split on whitespace, drop the empty pieces,
deduplicate. -/
def wordSet (s : String) : List (List Char) :=
  ((s.data.splitOnP Char.isWhitespace).filter (fun w => ¬ w = [])).dedup

/-- `len(fn_words & ov_words)`: cardinality of the word-set intersection
(`a` is already deduplicated). -/
def interCard (a b : List (List Char)) : Nat :=
  (a.filter (fun w => w ∈ b)).length

/-- The fuzzy-match fold of `_match_overview` (report.py lines 230-241):
state is `(best_score, best_match)`. -/
def bestMatchGo (fnWords : List (List Char)) :
    List (String × OverviewMeta) → Nat × Option MatchResult → Nat × Option MatchResult
  | [], acc => acc
  | kv :: rest, acc =>
    if ("accessibility:".toList.isPrefixOf kv.1.data) then bestMatchGo fnWords rest acc
    else
      if acc.1 < interCard fnWords (wordSet kv.1) ∧ 2 ≤ interCard fnWords (wordSet kv.1) then
        bestMatchGo fnWords rest
          (interCard fnWords (wordSet kv.1), some ⟨pyTitleS kv.1, some kv.2⟩)
      else bestMatchGo fnWords rest acc

/-- `_match_overview` (report.py line 222). -/
def matchOverview (filenameIssue : String) (overview : List (String × OverviewMeta)) :
    MatchResult :=
  match lookupA overview (pyLowerS filenameIssue) with
  | some m => ⟨filenameIssue, some m⟩
  | none =>
    match (bestMatchGo (wordSet (pyLowerS filenameIssue)) overview (0, none)).2 with
    | some r => r
    | none => ⟨filenameIssue, none⟩

/-! ### Sheet naming (`_url_to_sheet_name`) -/

def MAX_SHEET_NAME : Nat := 31

/-- The character class of `INVALID_SHEET_CHARS`. -/
def invalidSheetChars : List Char := ['\\', '/', '*', '?', '[', ']', ':']

/-- `INVALID_SHEET_CHARS.sub("", name)`. -/
def removeInvalid (cs : List Char) : List Char :=
  cs.filter (fun c => ¬ c ∈ invalidSheetChars)

/-- `urlparse(url).path` for the absolute http(s) URLs this program feeds
it: drop the scheme and the authority (which extends to the first of
`/ ? #`), then cut the path at the first `?` or `#`. A string without an
http(s) scheme is kept whole up to `?`/`#`. -/
def urlPath (url : List Char) : List Char :=
  let rest :=
    if ("https://".toList).isPrefixOf url then
      (url.drop 8).dropWhile (fun c => ¬ c = '/' ∧ ¬ c = '?' ∧ ¬ c = '#')
    else if ("http://".toList).isPrefixOf url then
      (url.drop 7).dropWhile (fun c => ¬ c = '/' ∧ ¬ c = '?' ∧ ¬ c = '#')
    else url
  rest.takeWhile (fun c => ¬ c = '?' ∧ ¬ c = '#')

/-- `path.replace("/", " - ")`. -/
def replaceSlashes (cs : List Char) : List Char :=
  cs.flatMap (fun c => if c = '/' then " - ".toList else [c])

/-- Python slice `cs[:k]` where `k` may be negative. -/
def pySliceTo (cs : List Char) (k : Int) : List Char :=
  if 0 ≤ k then cs.take k.toNat else cs.take (cs.length - (-k).toNat)

/-- `name = path.replace("/", " - ") if path else "home"` with
`path = urlparse(url).path.strip("/")` (report.py lines 276-278). -/
def sheetName₀ (url : List Char) : List Char :=
  if stripChars ['/'] (urlPath url) = [] then "home".toList
  else replaceSlashes (stripChars ['/'] (urlPath url))

/-- `INVALID_SHEET_CHARS.sub("", name).strip() or "page"` (line 279). -/
def sheetName₁ (url : List Char) : List Char :=
  if stripWs (removeInvalid (sheetName₀ url)) = [] then "page".toList
  else stripWs (removeInvalid (sheetName₀ url))

/-- The truncation step (lines 281-282). -/
def sheetBase (url : List Char) : List Char :=
  if MAX_SHEET_NAME - 4 < (sheetName₁ url).length then
    rstripChars [' ', '-'] ((sheetName₁ url).take (MAX_SHEET_NAME - 4))
  else sheetName₁ url

/-- The `" (n)"` collision suffix. -/
def collisionSuffix (n : Nat) : List Char :=
  ' ' :: '(' :: (natChars n ++ [')'])

/-- `_url_to_sheet_name` (report.py line 275). The `seen` dict maps a base
name to its collision counter; the function returns the sheet name and the
updated dict. -/
def urlToSheetName (url : List Char) (seen : List (List Char × Nat)) :
    List Char × List (List Char × Nat) :=
  match lookupA seen (sheetBase url) with
  | some k =>
    (pySliceTo (sheetBase url)
        ((MAX_SHEET_NAME : Int) - (collisionSuffix (k + 1)).length) ++
        collisionSuffix (k + 1),
      insertA seen (sheetBase url) (k + 1))
  | none => (sheetBase url, seen ++ [(sheetBase url, 0)])

/-- Fold a list of representative URLs through `_url_to_sheet_name` with
one shared `seen` dict, collecting the returned names in order. -/
def sheetNamesOf (urls : List (List Char)) : List (List Char) :=
  (urls.foldl
    (fun (acc : List (List Char) × List (List Char × Nat)) u =>
      let r := urlToSheetName u acc.2
      (acc.1 ++ [r.1], r.2))
    ([], [])).1

/-! ### Internal-page inventory (`_load_internal_urls`) -/

/-- The extensions of `_ASSET_EXT_RE`. -/
def assetExts : List String :=
  ["jpg", "jpeg", "png", "gif", "svg", "webp", "ico", "bmp", "tiff",
   "pdf", "doc", "docx", "xls", "xlsx", "ppt", "pptx",
   "css", "js", "json", "xml", "txt", "csv",
   "woff", "woff2", "ttf", "eot", "otf",
   "mp4", "mp3", "wav", "avi", "mov", "webm",
   "zip", "gz", "tar", "rar"]

/-- Does the regex `\.(?:ext|...)(?:\?.*)?$` match starting at this
position (a dot, an extension, then end of string or a query)? -/
def assetAt (cs : List Char) : Bool :=
  match cs with
  | '.' :: rest =>
    assetExts.any (fun e =>
      e.data.isPrefixOf rest ∧
        (let t := rest.drop e.data.length
         t.isEmpty ∨ t.headI = '?'))
  | _ => false

/-- `re.search` of the anchored pattern: try every start position. -/
def searchAsset : List Char → Bool
  | [] => false
  | c :: rest => assetAt (c :: rest) || searchAsset rest

/-- `_ASSET_EXT_RE` applied with `re.IGNORECASE`. -/
def isAssetUrl (a : String) : Bool := searchAsset (a.data.map Char.toLower)

/-- One row of the Internal:All export (only the two columns the loader
reads). -/
structure InvRow where
  address : Option String
  contentType : Option String
deriving DecidableEq

/-- `_load_internal_urls` (report.py line 118): `none` models a missing
CSV (the function returns the empty set). Keeps rows whose content type
contains "html" and whose address does not match the asset-extension
pattern (a NaN address passes the mask with `na=False` but is then removed
by `dropna`), normalizing each kept address. The Python result is a set;
this list is read only through membership and emptiness, both insensitive
to duplication. -/
def htmlMask (r : InvRow) : Bool :=
  match r.contentType with
  | some ct => isInfixL "html".data ct.data
  | none => false

def assetMask (r : InvRow) : Bool :=
  match r.address with
  | some a => isAssetUrl a
  | none => false

def loadInternalUrls (inv : Option (List InvRow)) : List String :=
  match inv with
  | none => []
  | some rows =>
    rows.filterMap (fun r =>
      if htmlMask r && !assetMask r then r.address.map normalizeUrlS
      else none)

/-! ### Per-issue CSVs (`_load_per_page_issues`) -/

/-- One CSV in `issues_reports/`: the filename stem and, when
`pd.read_csv` succeeds, the column list and the rows (cells aligned with
the columns, `none` = NaN). `table = none` models a parse failure, which
skips the whole file. -/
structure IssueCsv where
  stem : String
  table : Option (List String × List (List (Option String)))

/-- `row[col]`: the cell under a column label (first occurrence). -/
def cellVal (cols : List String) (cells : List (Option String)) (col : String) :
    Option String :=
  match cols.findIdx? (fun c => c = col) with
  | some i => (cells.get? i).getD none
  | none => none

/-- The `"Column: value"` fragments joined by `"; "` (report.py lines
196-205); only non-NaN values with non-whitespace content contribute, and
the address column and the two Indexability columns are skipped. -/
def detailStr (cols : List String) (cells : List (Option String)) (addrCol : String) :
    String :=
  String.intercalate "; "
    (cols.filterMap (fun col =>
      if col = addrCol ∨ col = "Indexability" ∨ col = "Indexability Status" then none
      else
        match cellVal cols cells col with
        | some v => if stripWsS v = "" then none else some (col ++ ": " ++ v)
        | none => none))

/-- The unified row built for one per-issue CSV row (report.py lines
207-217). -/
def mkIssueRow (mr : MatchResult) (cols : List String) (cells : List (Option String))
    (addrCol : String) : FindingRow :=
  ⟨"Issue", mr.name, metaPriority mr, detailStr cols cells addrCol,
    metaDescription mr, metaHowToFix mr, metaHelpURL mr⟩

/-- The `(url, row)` pairs one per-issue CSV contributes (report.py lines
166-217): an "inlinks" file, a parse failure, or a file without an
Address/URL column contributes nothing; each remaining row is keyed by its
normalized address, and when the internal-URL set is nonempty, rows whose
address is not in it are skipped. -/
def fileProductions (overview : List (String × OverviewMeta)) (internalUrls : List String)
    (f : IssueCsv) : List (String × FindingRow) :=
  if strContains (pyLowerS f.stem) "inlinks" then []
  else
    match f.table with
    | none => []
    | some (cols, rows) =>
      match cols.find? (fun c => c = "Address" ∨ c = "URL") with
      | none => []
      | some addrCol =>
        rows.filterMap (fun cells =>
          if ¬ internalUrls = [] ∧
              ¬ normalizeUrlS (strDf (cellVal cols cells addrCol)) ∈ internalUrls then
            none
          else
            some (normalizeUrlS (strDf (cellVal cols cells addrCol)),
              mkIssueRow (matchOverview (pyTitleS (underscoreToSpace f.stem)) overview)
                cols cells addrCol))

/-- `sorted(issues_dir.glob("*.csv"))`: within one directory this is the
lexicographic order of the file names `stem ++ ".csv"`. -/
def sortFiles (files : List IssueCsv) : List IssueCsv :=
  sortLe (fun a b => strLE (a.stem ++ ".csv") (b.stem ++ ".csv")) files

/-- `_load_per_page_issues` (report.py line 137): the nested per-file /
per-row `url_issues[url].append(row)` loops are the fold of `appendA` over
the concatenated per-file productions, taken in sorted file order. An
absent `issues_reports/` directory is the empty file list. -/
def loadPerPageIssues (files : List IssueCsv) (overview : List (String × OverviewMeta))
    (internalUrls : List String) : List (String × List FindingRow) :=
  groupByKeyA ((sortFiles files).flatMap (fileProductions overview internalUrls))

/-! ### Accessibility violations (`_load_accessibility`, `_a11y_to_rows`) -/

/-- One row of the accessibility-violations export, already projected to
the columns `_a11y_to_rows` reads (`row.get` of an absent column and a NaN
cell both yield "" after `_clean`, so both are `none`). `url` is the value
of the URL-bearing column. -/
structure A11yRow where
  url : String
  issue : Option String
  priority : Option String
  location : Option String
  issueDescription : Option String
  howToFix : Option String
  helpURL : Option String
deriving DecidableEq

/-- The raw accessibility CSV: its column list (for column detection and
the computed-summary branch) and its rows. -/
structure A11yCsv where
  cols : List String
  rows : List A11yRow

/-- `_load_accessibility` (report.py line 84): `none` in = missing CSV;
a table without an Address/URL column is rejected; otherwise the column is
renamed to URL and every URL value is normalized. -/
def loadAccessibility (c : Option A11yCsv) : Option A11yCsv :=
  match c with
  | none => none
  | some t =>
    match t.cols.find? (fun col => col = "Address" ∨ col = "URL") with
    | none => none
    | some urlCol =>
      some ⟨t.cols.map (fun col => if col = urlCol then "URL" else col),
        t.rows.map (fun r => { r with url := normalizeUrlS r.url })⟩

/-- `_a11y_to_rows` (report.py line 251): the rows of the table whose URL
equals `url`, in source order, as unified rows. -/
def a11yToRows (rows : List A11yRow) (url : String) : List FindingRow :=
  (rows.filter (fun r => r.url = url)).map (fun r =>
    ⟨"Accessibility", clean r.issue, clean r.priority, clean r.location,
      clean r.issueDescription, clean r.howToFix, clean r.helpURL⟩)

/-- report.py line 390: the accessibility table is restricted to internal
URLs only when the internal set is nonempty. -/
def filteredA11y (a11y : Option (List A11yRow)) (internalUrls : List String) :
    Option (List A11yRow) :=
  match a11y with
  | none => none
  | some rows =>
    if internalUrls = [] then some rows
    else some (rows.filter (fun r => r.url ∈ internalUrls))

/-! ### Combined per-page data (report.py lines 393-408) -/

/-- `all_urls`: the set of URLs with accessibility or issue data, modelled
as a deduplicated list (membership-equal to the Python set). -/
def allUrls (adf : Option (List A11yRow)) (perPage : List (String × List FindingRow)) :
    List String :=
  ((match adf with
    | some rows => (rows.map (fun r => r.url)).dedup
    | none => []) ++ perPage.map Prod.fst).dedup

/-- The combined row list of one URL: accessibility rows first, then the
per-issue rows. -/
def combinedRows (adf : Option (List A11yRow)) (perPage : List (String × List FindingRow))
    (url : String) : List FindingRow :=
  (match adf with
   | some rows => a11yToRows rows url
   | none => []) ++ (lookupA perPage url).getD []

/-- `url_rows`: URLs with a nonempty combined row list, with their rows.
The Python dict is keyed by set-iteration order and all later reads sort;
this canonical order is association-equal to it. -/
def urlRowsList (adf : Option (List A11yRow)) (perPage : List (String × List FindingRow)) :
    List (String × List FindingRow) :=
  (allUrls adf perPage).filterMap (fun u =>
    let rows := combinedRows adf perPage u
    if rows.isEmpty then none else some (u, rows))

/-! ### Dedup grouping and sheet construction (report.py lines 411-480) -/

structure Sheet where
  name : String
  rep : String
  urls : List String
  rows : List FindingRow
deriving DecidableEq

structure IndexRow where
  url : String
  sheet : String
  a11yCount : Nat
  issueCount : Nat
  duplicates : Option Nat
deriving DecidableEq

/-- The per-fingerprint-group sheet loop (report.py lines 425-480),
threading the `sheet_names_seen` dict. Each group yields one sheet (named
after its first URL) and one index row per URL of the group; `duplicates =
none` models the empty-string Duplicates cell of a singleton group. -/
def buildPagesGo (data : List (String × List FindingRow)) :
    List (List (List String) × List String) → List (List Char × Nat) →
      List Sheet × List IndexRow
  | [], _ => ([], [])
  | g :: gs, seen =>
    let rep := g.2.headI
    let rows := (lookupA data rep).getD []
    let r := urlToSheetName rep.data seen
    let sheet : Sheet := ⟨⟨r.1⟩, rep, g.2, rows⟩
    let idx := g.2.map (fun u =>
      (⟨u, ⟨r.1⟩, rows.countP (fun fr => fr.type = "Accessibility"),
        rows.countP (fun fr => fr.type = "Issue"),
        if 1 < g.2.length then some g.2.length else none⟩ : IndexRow))
    let rest := buildPagesGo data gs r.2
    (sheet :: rest.1, idx ++ rest.2)

/-- report.py lines 411-480: sort the `(url, rows)` items, group the URLs
by fingerprint with `fp_to_urls[fp].append(url)`, then build one sheet per
group plus the page-index rows. -/
def buildPages (data : List (String × List FindingRow)) : List Sheet × List IndexRow :=
  let sorted := sortLe (fun a b => strLE a.1 b.1) data
  let groups := groupByKeyA (sorted.map (fun p => (fingerprint p.2, p.1)))
  buildPagesGo sorted groups []

/-! ### `generate_report` (report.py line 337) -/

/-- The Issues Overview CSV. -/
structure OverviewRow where
  issueName : Option String
  priority : Option String
  description : Option String
  howToFix : Option String
  helpURL : Option String
  issueType : Option String

structure IssuesCsv where
  cols : List String
  rows : List OverviewRow

/-- `_load_issues_overview` (report.py line 72): rejected unless an
"Issue Name" column exists. -/
def loadIssuesOverview (c : Option IssuesCsv) : Option (List OverviewRow) :=
  match c with
  | none => none
  | some t => if "Issue Name" ∈ t.cols then some t.rows else none

/-- `overview_lookup` (report.py lines 152-162): keyed by the lowercased
issue name (`str(row.get(...))`, so a NaN name keys as "nan"); duplicate
names overwrite in place like a Python dict. -/
def buildOverviewLookup (rows : List OverviewRow) : List (String × OverviewMeta) :=
  rows.foldl
    (fun m r =>
      insertA m (pyLowerS (strDf r.issueName))
        ⟨clean r.priority, clean r.description, clean r.howToFix,
          clean r.helpURL, clean r.issueType⟩)
    []

/-- The computed Accessibility Summary branch (report.py lines 364-381):
`issue_col` is the first column whose lowercase name is issue, violation
or issue name, with `cols[1]` as the fallback when there are at least two
columns; the sheet is added when the resulting value is truthy. -/
def a11ySummaryProduced (cols : List String) : Bool :=
  match
    (match cols.find? (fun c =>
        pyLowerS c = "issue" ∨ pyLowerS c = "violation" ∨ pyLowerS c = "issue name") with
     | some c => some c
     | none => cols.get? 1) with
  | some c => ¬ c = ""
  | none => false

/-- Everything `generate_report` reads from the export directory. -/
structure ExportData where
  issuesCsv : Option IssuesCsv
  a11ySummaryCsv : Option Unit
  a11yCsv : Option A11yCsv
  internalCsv : Option (List InvRow)
  issueFiles : List IssueCsv

def ExportData.empty : ExportData := ⟨none, none, none, none, []⟩

/-- A saved workbook: the sheet names in final order (summaries, the Pages
index, then the per-page sheets), the per-page sheets and the Pages index
rows. -/
structure Report where
  sheetNames : List String
  pageSheets : List Sheet
  pageIndex : List IndexRow

def reportInternal (d : ExportData) : List String :=
  loadInternalUrls d.internalCsv

def reportOverviewLookup (d : ExportData) : List (String × OverviewMeta) :=
  match loadIssuesOverview d.issuesCsv with
  | some rows => buildOverviewLookup rows
  | none => []

def reportPerPage (d : ExportData) : List (String × List FindingRow) :=
  loadPerPageIssues d.issueFiles (reportOverviewLookup d) (reportInternal d)

def reportA11y (d : ExportData) : Option (List A11yRow) :=
  filteredA11y ((loadAccessibility d.a11yCsv).map A11yCsv.rows) (reportInternal d)

def reportUrlRows (d : ExportData) : List (String × List FindingRow) :=
  urlRowsList (reportA11y d) (reportPerPage d)

def reportPages (d : ExportData) : List Sheet × List IndexRow :=
  buildPages (reportUrlRows d)

/-- `generate_report` (report.py line 337). The "Pages" sheet is created
unconditionally at line 483; after `wb.move_sheet` the sheet order is
summaries, Pages, per-page sheets. The final `len(wb.sheetnames) == 0`
check at line 526 raises (`Except.error`, no file written) only when the
workbook has zero sheets; otherwise `wb.save` runs (`Except.ok`). -/
def generateReport (d : ExportData) : Except String Report :=
  let s₁ : List String :=
    match loadIssuesOverview d.issuesCsv with
    | some _ => ["Issues Summary"]
    | none => []
  let s₂ : List String :=
    match d.a11ySummaryCsv with
    | some _ => ["Accessibility Summary"]
    | none =>
      match loadAccessibility d.a11yCsv with
      | some t => if a11ySummaryProduced t.cols then ["Accessibility Summary"] else []
      | none => []
  let pages := reportPages d
  let names := s₁ ++ s₂ ++ "Pages" :: pages.1.map Sheet.name
  if names.length = 0 then
    Except.error "No valid CSVs found"
  else
    Except.ok ⟨names, pages.1, pages.2⟩

/-! ### Concrete example data (used by witnesses and counterexamples) -/

def exRowA : FindingRow :=
  ⟨"Accessibility", "Low contrast", "High", "body > p", "Contrast too low",
    "Fix the colors", "https://help.example/contrast"⟩

def exRowB : FindingRow :=
  ⟨"Issue", "Missing Alt Text", "Low", "", "Images lack alt text",
    "Add alt attributes", "https://help.example/alt"⟩

def exMeta1 : OverviewMeta := ⟨"High", "d1", "f1", "h1", "t1"⟩

def exMeta2 : OverviewMeta := ⟨"Low", "d2", "f2", "h2", "t2"⟩

def exMeta3 : OverviewMeta := ⟨"Medium", "d3", "f3", "h3", "t3"⟩

def exOverview : List (String × OverviewMeta) :=
  [("accessibility: images missing alt", exMeta1),
   ("missing alt text attribute", exMeta2),
   ("missing alt", exMeta3)]

/-- A loaded (normalized) accessibility row for one page. -/
def exA11yRows : List A11yRow :=
  [⟨"https://x.com/a", some "Alt missing", some "High", none, none, none, none⟩]

/-- One per-issue CSV with a single row about the same page. -/
def exIssueFile : IssueCsv :=
  ⟨"missing_alt_text", some (["Address", "Detail"], [[some "https://x.com/a", some "img.1"]])⟩

/-- A raw accessibility CSV naming two pages (pre-normalization URLs). -/
def exA11yCsv : A11yCsv :=
  ⟨["Address", "Issue"],
    [⟨"http://x.com/a", some "Alt missing", some "High", none, none, none, none⟩,
     ⟨"http://y.com/b", some "Alt missing", some "High", none, none, none, none⟩]⟩

/-- An export with accessibility data but no internal-page inventory. -/
def exExportNoInv : ExportData := ⟨none, none, some exA11yCsv, none, []⟩

/-- An inventory listing only x.com/a as an internal HTML page. -/
def exInvRows : List InvRow :=
  [⟨some "https://x.com/a", some "text/html; charset=UTF-8"⟩]

/-- The same export with the inventory present. -/
def exExportInv : ExportData := ⟨none, none, some exA11yCsv, some exInvRows, []⟩

/-- Two pages with identical finding lists (for the dedup claim). -/
def exDataC6 : List (String × List FindingRow) :=
  [("https://b.com/x", [exRowA]), ("https://a.com/y", [exRowA])]

/-! ## Helper lemmas -/

section Lemmas

variable {α β : Type}

theorem insertLe_perm (le : α → α → Bool) (x : α) (l : List α) :
    (insertLe le x l).Perm (x :: l) := by
  induction l with
  | nil => exact List.Perm.refl _
  | cons y ys ih =>
    simp only [insertLe]
    split
    · exact List.Perm.refl _
    · exact (ih.cons y).trans (List.Perm.swap x y ys)

theorem sortLe_perm (le : α → α → Bool) (l : List α) : (sortLe le l).Perm l := by
  induction l with
  | nil => exact List.Perm.refl _
  | cons x xs ih => exact (insertLe_perm le x (sortLe le xs)).trans (ih.cons x)

theorem mem_insertLe {le : α → α → Bool} {x a : α} {l : List α} :
    a ∈ insertLe le x l ↔ a = x ∨ a ∈ l := by
  rw [(insertLe_perm le x l).mem_iff, List.mem_cons]

theorem insertLe_pairwise {le : α → α → Bool}
    (total : ∀ a b, le a b = true ∨ le b a = true)
    (trans : ∀ a b c, le a b = true → le b c = true → le a c = true)
    {x : α} {l : List α} (h : l.Pairwise (fun a b => le a b = true)) :
    (insertLe le x l).Pairwise (fun a b => le a b = true) := by
  induction l with
  | nil => simp [insertLe]
  | cons y ys ih =>
    simp only [insertLe]
    split
    · rename_i hxy
      refine List.Pairwise.cons ?_ h
      intro b hb
      rcases List.mem_cons.mp hb with rfl | hb
      · exact hxy
      · exact trans x y b hxy (List.rel_of_pairwise_cons h hb)
    · rename_i hxy
      have hyx : le y x = true := by
        rcases total x y with hx | hy
        · exact absurd hx hxy
        · exact hy
      refine List.Pairwise.cons ?_ (ih (List.Pairwise.of_cons h))
      intro b hb
      rcases mem_insertLe.mp hb with rfl | hb
      · exact hyx
      · exact List.rel_of_pairwise_cons h hb

theorem sortLe_pairwise {le : α → α → Bool}
    (total : ∀ a b, le a b = true ∨ le b a = true)
    (trans : ∀ a b c, le a b = true → le b c = true → le a c = true)
    (l : List α) : (sortLe le l).Pairwise (fun a b => le a b = true) := by
  induction l with
  | nil => simp [sortLe]
  | cons x xs ih => exact insertLe_pairwise total trans ih

theorem lookupA_mem [DecidableEq α] {m : List (α × β)} {k : α} {v : β}
    (h : lookupA m k = some v) : (k, v) ∈ m := by
  induction m with
  | nil => simp [lookupA] at h
  | cons p rest ih =>
    rw [lookupA] at h
    split at h
    · rename_i heq
      cases h
      cases p
      cases heq
      exact List.mem_cons_self _ _
    · exact List.mem_cons_of_mem _ (ih h)

theorem lookupA_none_iff [DecidableEq α] {m : List (α × β)} {k : α} :
    lookupA m k = none ↔ ¬ k ∈ m.map Prod.fst := by
  induction m with
  | nil => simp [lookupA]
  | cons p rest ih =>
    rw [lookupA]
    split
    · rename_i heq
      simp [heq]
    · rename_i hne
      simp [ih, hne]

theorem mem_lookupA_of_nodup [DecidableEq α] {m : List (α × β)} {k : α} {v : β}
    (hnd : (m.map Prod.fst).Nodup) (h : (k, v) ∈ m) : lookupA m k = some v := by
  induction m with
  | nil => simp at h
  | cons p rest ih =>
    rcases List.mem_cons.mp h with rfl | h
    · simp [lookupA]
    · rw [lookupA]
      split
      · rename_i heq
        exfalso
        rw [List.map_cons, List.nodup_cons] at hnd
        exact hnd.1 (heq ▸ List.mem_map_of_mem Prod.fst h)
      · exact ih (List.Nodup.of_cons (by simpa using hnd)) h

theorem appendA_lookup_self [DecidableEq α] (m : List (α × List β)) (k : α) (v : β) :
    lookupA (appendA m k v) k = some ((lookupA m k).getD [] ++ [v]) := by
  induction m with
  | nil => simp [appendA, lookupA]
  | cons p rest ih =>
    rw [appendA]
    split
    · rename_i heq
      simp [lookupA, heq]
    · rename_i hne
      rw [lookupA, lookupA]
      split
      · rename_i heq
        exact absurd heq hne
      · exact ih

theorem appendA_lookup_ne [DecidableEq α] {m : List (α × List β)} {k k' : α} (v : β)
    (hne : ¬ k' = k) : lookupA (appendA m k v) k' = lookupA m k' := by
  induction m with
  | nil => simp [appendA, lookupA, hne]
  | cons p rest ih =>
    rw [appendA]
    split
    · rename_i heq
      subst heq
      simp [lookupA, hne]
    · rw [lookupA, lookupA]
      split
      · rfl
      · exact ih

theorem appendA_keys [DecidableEq α] (m : List (α × List β)) (k : α) (v : β) :
    (appendA m k v).map Prod.fst =
      if k ∈ m.map Prod.fst then m.map Prod.fst else m.map Prod.fst ++ [k] := by
  induction m with
  | nil => simp [appendA]
  | cons p rest ih =>
    rw [appendA]
    split
    · rename_i heq
      simp [heq]
    · rename_i hne
      have : ¬ k = p.1 := hne
      simp only [List.map_cons, ih]
      by_cases hk : k ∈ rest.map Prod.fst
      · simp [hk, List.mem_cons, this]
      · simp [hk, List.mem_cons, this]

theorem appendA_keys_nodup [DecidableEq α] {m : List (α × List β)} (k : α) (v : β)
    (hnd : (m.map Prod.fst).Nodup) : ((appendA m k v).map Prod.fst).Nodup := by
  rw [appendA_keys]
  split
  · exact hnd
  · rename_i hk
    rw [List.nodup_append]
    refine ⟨hnd, List.nodup_singleton k, ?_⟩
    intro a ha hb
    rw [List.mem_singleton] at hb
    exact hk (hb ▸ ha)

theorem groupFold_lookup_getD [DecidableEq α] (l : List (α × β)) (k : α) :
    ∀ m : List (α × List β),
      (lookupA (l.foldl (fun m p => appendA m p.1 p.2) m) k).getD [] =
        (lookupA m k).getD [] ++ (l.filter (fun p => p.1 = k)).map Prod.snd := by
  induction l with
  | nil => simp
  | cons p rest ih =>
    intro m
    rw [List.foldl_cons, ih]
    by_cases hk : p.1 = k
    · subst hk
      rw [appendA_lookup_self]
      simp
    · rw [appendA_lookup_ne _ (fun h => hk h.symm)]
      simp [hk]

theorem groupFold_lookup_none [DecidableEq α] (l : List (α × β)) (k : α) :
    ∀ m : List (α × List β),
      (lookupA (l.foldl (fun m p => appendA m p.1 p.2) m) k = none ↔
        lookupA m k = none ∧ ¬ k ∈ l.map Prod.fst) := by
  induction l with
  | nil => simp
  | cons p rest ih =>
    intro m
    rw [List.foldl_cons, ih]
    by_cases hk : p.1 = k
    · subst hk
      rw [appendA_lookup_self]
      simp
    · rw [appendA_lookup_ne _ (fun h => hk h.symm)]
      simp only [List.map_cons, List.mem_cons]
      constructor
      · rintro ⟨h1, h2⟩
        exact ⟨h1, by rintro (h | h) <;> [exact hk h.symm; exact h2 h]⟩
      · rintro ⟨h1, h2⟩
        exact ⟨h1, fun h => h2 (Or.inr h)⟩

theorem groupFold_keys_nodup [DecidableEq α] (l : List (α × β)) :
    ∀ m : List (α × List β), ((m.map Prod.fst).Nodup) →
      (((l.foldl (fun m p => appendA m p.1 p.2) m).map Prod.fst).Nodup) := by
  induction l with
  | nil => exact fun m h => h
  | cons p rest ih =>
    intro m hm
    exact ih _ (appendA_keys_nodup p.1 p.2 hm)

theorem groupByKeyA_keys_nodup [DecidableEq α] (l : List (α × β)) :
    ((groupByKeyA l).map Prod.fst).Nodup :=
  groupFold_keys_nodup l [] (by simp)

/-- The list stored under `k` by the grouping fold is exactly the values
of the input pairs with key `k`, in order. -/
theorem groupByKeyA_lookup [DecidableEq α] (l : List (α × β)) (k : α)
    (hk : k ∈ l.map Prod.fst) :
    lookupA (groupByKeyA l) k = some ((l.filter (fun p => p.1 = k)).map Prod.snd) := by
  have hval := groupFold_lookup_getD l k []
  have hnone := groupFold_lookup_none l k []
  rw [groupByKeyA]
  match h : lookupA (l.foldl (fun m p => appendA m p.1 p.2) []) k with
  | none => exact absurd ((hnone.mp h).2) (by simpa using hk)
  | some vs =>
    rw [h] at hval
    simp at hval
    rw [h, hval]
    simp [lookupA]

theorem groupByKeyA_mem [DecidableEq α] {l : List (α × β)} {k : α} {vs : List β}
    (h : (k, vs) ∈ groupByKeyA l) :
    vs = (l.filter (fun p => p.1 = k)).map Prod.snd ∧ k ∈ l.map Prod.fst := by
  have hl := mem_lookupA_of_nodup (groupByKeyA_keys_nodup l) h
  have hk : k ∈ l.map Prod.fst := by
    by_contra hk
    rw [groupByKeyA] at hl
    rw [(groupFold_lookup_none l k []).mpr ⟨by simp [lookupA], hk⟩] at hl
    cases hl
  rw [groupByKeyA_lookup l k hk] at hl
  exact ⟨(Option.some_injective _ hl).symm, hk⟩

theorem replaceFirstL_append (old new t : List Char) (c : Char) (old' : List Char)
    (h : old = c :: old') :
    replaceFirstL old new (old ++ t) = new ++ t := by
  subst h
  rw [List.cons_append, replaceFirstL]
  rw [if_pos, List.length_cons, List.drop_succ_cons, List.drop_left]
  rw [List.isPrefixOf_iff_prefix]
  exact ⟨t, by simp⟩

theorem normalizeUrl_http (t : List Char) :
    normalizeUrl ("http://".toList ++ t) = "https://".toList ++ t := by
  have hp : ("http://".toList.isPrefixOf ("http://".toList ++ t)) = true := by
    rw [List.isPrefixOf_iff_prefix]
    exact ⟨t, rfl⟩
  rw [normalizeUrl, if_pos hp]
  exact replaceFirstL_append "http://".toList "https://".toList t 'h' "ttp://".toList
    (by rfl)

theorem normalizeUrl_https (t : List Char) :
    normalizeUrl ("https://".toList ++ t) = "https://".toList ++ t := by
  rw [normalizeUrl, if_neg]
  intro hpre
  rw [List.isPrefixOf_iff_prefix] at hpre
  obtain ⟨u, hu⟩ := hpre
  simp [List.cons_append] at hu

theorem normalizeUrl_not_http (s : List Char) (h : ¬ "http://".toList <+: s) :
    normalizeUrl s = s := by
  rw [normalizeUrl, if_neg]
  rw [List.isPrefixOf_iff_prefix]
  exact h

theorem charsLT_irrefl : ∀ xs : List Char, charsLT xs xs = false := by
  intro xs
  induction xs with
  | nil => rfl
  | cons a as ih => rw [charsLT, if_pos rfl, ih]

theorem charsLT_asymm : ∀ xs ys : List Char,
    charsLT xs ys = true → charsLT ys xs = true → False := by
  intro xs
  induction xs with
  | nil =>
    intro ys h1 h2
    cases ys with
    | nil => simp [charsLT] at h1
    | cons b bs => simp [charsLT] at h2
  | cons a as ih =>
    intro ys h1 h2
    cases ys with
    | nil => simp [charsLT] at h1
    | cons b bs =>
      by_cases hab : a = b
      · subst hab
        rw [charsLT, if_pos rfl] at h1 h2
        exact ih bs h1 h2
      · rw [charsLT, if_neg hab] at h1
        rw [charsLT, if_neg (Ne.symm hab)] at h2
        exact absurd (lt_trans (of_decide_eq_true h1) (of_decide_eq_true h2))
          (lt_irrefl a)

theorem charsLT_trans : ∀ xs ys zs : List Char,
    charsLT xs ys = true → charsLT ys zs = true → charsLT xs zs = true := by
  intro xs
  induction xs with
  | nil =>
    intro ys zs h1 h2
    cases ys with
    | nil => simp [charsLT] at h1
    | cons b bs =>
      cases zs with
      | nil => simp [charsLT] at h2
      | cons c cs => rfl
  | cons a as ih =>
    intro ys zs h1 h2
    cases ys with
    | nil => simp [charsLT] at h1
    | cons b bs =>
      cases zs with
      | nil => simp [charsLT] at h2
      | cons c cs =>
        by_cases hab : a = b <;> by_cases hbc : b = c
        · subst hab
          subst hbc
          rw [charsLT, if_pos rfl] at h1 h2 ⊢
          exact ih bs cs h1 h2
        · subst hab
          rw [charsLT, if_neg hbc] at h2 ⊢
          exact h2
        · subst hbc
          rw [charsLT, if_neg hab] at h1 ⊢
          exact h1
        · rw [charsLT, if_neg hab] at h1
          rw [charsLT, if_neg hbc] at h2
          have hac : a < c := lt_trans (of_decide_eq_true h1) (of_decide_eq_true h2)
          rw [charsLT, if_neg (ne_of_lt hac)]
          exact decide_eq_true hac

theorem charsLT_connex : ∀ xs ys : List Char,
    ¬ xs = ys → charsLT xs ys = true ∨ charsLT ys xs = true := by
  intro xs
  induction xs with
  | nil =>
    intro ys hne
    cases ys with
    | nil => exact absurd rfl hne
    | cons b bs => left; rfl
  | cons a as ih =>
    intro ys hne
    cases ys with
    | nil => right; rfl
    | cons b bs =>
      by_cases hab : a = b
      · subst hab
        have htl : ¬ as = bs := fun h => hne (by rw [h])
        rcases ih bs htl with h | h
        · left; rw [charsLT, if_pos rfl]; exact h
        · right; rw [charsLT, if_pos rfl]; exact h
      · rcases lt_or_gt_of_ne hab with h | h
        · left
          rw [charsLT, if_neg hab]
          exact decide_eq_true h
        · right
          rw [charsLT, if_neg (Ne.symm hab)]
          exact decide_eq_true h

theorem charsLE_refl : ∀ xs : List Char, charsLE xs xs = true := by
  intro xs
  induction xs with
  | nil => rfl
  | cons a as ih => rw [charsLE, if_pos rfl, ih]

theorem charsLE_total : ∀ xs ys : List Char,
    charsLE xs ys = true ∨ charsLE ys xs = true := by
  intro xs
  induction xs with
  | nil => intro ys; left; rfl
  | cons a as ih =>
    intro ys
    cases ys with
    | nil => right; rfl
    | cons b bs =>
      by_cases hab : a = b
      · subst hab
        rcases ih bs with h | h
        · left; rw [charsLE, if_pos rfl]; exact h
        · right; rw [charsLE, if_pos rfl]; exact h
      · rcases lt_or_gt_of_ne hab with h | h
        · left
          rw [charsLE, if_neg hab]
          exact decide_eq_true h
        · right
          rw [charsLE, if_neg (Ne.symm hab)]
          exact decide_eq_true h

theorem charsLE_trans : ∀ xs ys zs : List Char,
    charsLE xs ys = true → charsLE ys zs = true → charsLE xs zs = true := by
  intro xs
  induction xs with
  | nil => intro ys zs _ _; rfl
  | cons a as ih =>
    intro ys zs h1 h2
    cases ys with
    | nil => simp [charsLE] at h1
    | cons b bs =>
      cases zs with
      | nil => simp [charsLE] at h2
      | cons c cs =>
        by_cases hab : a = b <;> by_cases hbc : b = c
        · subst hab
          subst hbc
          rw [charsLE, if_pos rfl] at h1 h2 ⊢
          exact ih bs cs h1 h2
        · subst hab
          rw [charsLE, if_neg hbc] at h2 ⊢
          exact h2
        · subst hbc
          rw [charsLE, if_neg hab] at h1 ⊢
          exact h1
        · rw [charsLE, if_neg hab] at h1
          rw [charsLE, if_neg hbc] at h2
          have hac : a < c := lt_trans (of_decide_eq_true h1) (of_decide_eq_true h2)
          rw [charsLE, if_neg (ne_of_lt hac)]
          exact decide_eq_true hac

theorem charsLE_antisymm : ∀ xs ys : List Char,
    charsLE xs ys = true → charsLE ys xs = true → xs = ys := by
  intro xs
  induction xs with
  | nil =>
    intro ys _ h2
    cases ys with
    | nil => rfl
    | cons b bs => simp [charsLE] at h2
  | cons a as ih =>
    intro ys h1 h2
    cases ys with
    | nil => simp [charsLE] at h1
    | cons b bs =>
      by_cases hab : a = b
      · subst hab
        rw [charsLE, if_pos rfl] at h1 h2
        rw [ih bs h1 h2]
      · rw [charsLE, if_neg hab] at h1
        rw [charsLE, if_neg (Ne.symm hab)] at h2
        exact absurd (lt_trans (of_decide_eq_true h1) (of_decide_eq_true h2))
          (lt_irrefl a)

theorem string_data_ne {a b : String} (h : ¬ a = b) : ¬ a.data = b.data := by
  intro hd
  cases a
  cases b
  cases hd
  exact h rfl

theorem tupLE_total : ∀ xs ys : List String, tupLE xs ys = true ∨ tupLE ys xs = true := by
  intro xs
  induction xs with
  | nil => intro ys; left; rfl
  | cons a as ih =>
    intro ys
    cases ys with
    | nil => right; rfl
    | cons b bs =>
      by_cases hab : a = b
      · subst hab
        rcases ih bs with h | h
        · left; rw [tupLE, if_pos rfl]; exact h
        · right; rw [tupLE, if_pos rfl]; exact h
      · rcases charsLT_connex a.data b.data (string_data_ne hab) with h | h
        · left
          rw [tupLE, if_neg hab]
          exact h
        · right
          rw [tupLE, if_neg (Ne.symm hab)]
          exact h

theorem tupLE_trans : ∀ xs ys zs : List String,
    tupLE xs ys = true → tupLE ys zs = true → tupLE xs zs = true := by
  intro xs
  induction xs with
  | nil => intro ys zs _ _; rfl
  | cons a as ih =>
    intro ys zs h1 h2
    cases ys with
    | nil => simp [tupLE] at h1
    | cons b bs =>
      cases zs with
      | nil => simp [tupLE] at h2
      | cons c cs =>
        by_cases hab : a = b <;> by_cases hbc : b = c
        · subst hab
          subst hbc
          rw [tupLE, if_pos rfl] at h1 h2 ⊢
          exact ih bs cs h1 h2
        · subst hab
          rw [tupLE, if_neg hbc] at h2 ⊢
          exact h2
        · subst hbc
          rw [tupLE, if_neg hab] at h1 ⊢
          exact h1
        · rw [tupLE, if_neg hab] at h1
          rw [tupLE, if_neg hbc] at h2
          have hac : charsLT a.data c.data = true := charsLT_trans _ _ _ h1 h2
          have hne : ¬ a = c := by
            intro he
            subst he
            exact charsLT_asymm _ _ h1 h2
          rw [tupLE, if_neg hne]
          exact hac

theorem tupLE_antisymm : ∀ xs ys : List String,
    tupLE xs ys = true → tupLE ys xs = true → xs = ys := by
  intro xs
  induction xs with
  | nil =>
    intro ys _ h2
    cases ys with
    | nil => rfl
    | cons b bs => simp [tupLE] at h2
  | cons a as ih =>
    intro ys h1 h2
    cases ys with
    | nil => simp [tupLE] at h1
    | cons b bs =>
      by_cases hab : a = b
      · subst hab
        rw [tupLE, if_pos rfl] at h1 h2
        rw [ih bs h1 h2]
      · rw [tupLE, if_neg hab] at h1
        rw [tupLE, if_neg (Ne.symm hab)] at h2
        exact (charsLT_asymm a.data b.data h1 h2).elim

theorem sortLe_tupLE_eq_of_perm {l₁ l₂ : List (List String)} (h : l₁.Perm l₂) :
    sortLe tupLE l₁ = sortLe tupLE l₂ := by
  haveI : IsAntisymm (List String) (fun a b => tupLE a b = true) :=
    ⟨fun a b => tupLE_antisymm a b⟩
  refine @List.eq_of_perm_of_sorted (List String) (fun a b => tupLE a b = true) _ _ _ ?_ ?_ ?_
  · exact (sortLe_perm _ _).trans (h.trans (sortLe_perm _ _).symm)
  · exact sortLe_pairwise (fun a b => tupLE_total a b) (fun a b c => tupLE_trans a b c) l₁
  · exact sortLe_pairwise (fun a b => tupLE_total a b) (fun a b c => tupLE_trans a b c) l₂

theorem bestMatchGo_skip (fnWords : List (List Char)) :
    ∀ (l : List (String × OverviewMeta)) (acc : Nat × Option MatchResult),
      (∀ kv ∈ l, ¬ "accessibility:".toList.isPrefixOf kv.1.data = true →
        interCard fnWords (wordSet kv.1) < 2 ∨
          interCard fnWords (wordSet kv.1) ≤ acc.1) →
      bestMatchGo fnWords l acc = acc := by
  intro l
  induction l with
  | nil => intro acc _; rfl
  | cons kv rest ih =>
    intro acc h
    rw [bestMatchGo]
    split
    · exact ih acc (fun e he => h e (List.mem_cons_of_mem kv he))
    · rename_i hacc
      rw [if_neg, ih acc (fun e he => h e (List.mem_cons_of_mem kv he))]
      rcases h kv (List.mem_cons_self kv rest) hacc with hlt | hle
      · rintro ⟨-, h2⟩
        omega
      · rintro ⟨h1, -⟩
        omega

theorem bestMatchGo_select (fnWords : List (List Char)) (kv : String × OverviewMeta) :
    ∀ (pre post : List (String × OverviewMeta)) (acc : Nat × Option MatchResult),
      ¬ "accessibility:".toList.isPrefixOf kv.1.data = true →
      2 ≤ interCard fnWords (wordSet kv.1) →
      acc.1 < interCard fnWords (wordSet kv.1) →
      (∀ e ∈ pre, ¬ "accessibility:".toList.isPrefixOf e.1.data = true →
        interCard fnWords (wordSet e.1) < interCard fnWords (wordSet kv.1)) →
      (∀ e ∈ post, ¬ "accessibility:".toList.isPrefixOf e.1.data = true →
        interCard fnWords (wordSet e.1) ≤ interCard fnWords (wordSet kv.1)) →
      bestMatchGo fnWords (pre ++ kv :: post) acc =
        (interCard fnWords (wordSet kv.1), some ⟨pyTitleS kv.1, some kv.2⟩) := by
  intro pre
  induction pre with
  | nil =>
    intro post acc hkv hs hacc hpre hpost
    rw [List.nil_append, bestMatchGo, if_neg (fun h => hkv h), if_pos ⟨hacc, hs⟩]
    exact bestMatchGo_skip fnWords post _ (fun e he helig => Or.inr (hpost e he helig))
  | cons e pre ih =>
    intro post acc hkv hs hacc hpre hpost
    rw [List.cons_append, bestMatchGo]
    split
    · exact ih post acc hkv hs hacc
        (fun x hx => hpre x (List.mem_cons_of_mem e hx)) hpost
    · rename_i helig
      split
      · exact ih post _ hkv hs
          (hpre e (List.mem_cons_self e pre) helig)
          (fun x hx => hpre x (List.mem_cons_of_mem e hx)) hpost
      · exact ih post acc hkv hs hacc
          (fun x hx => hpre x (List.mem_cons_of_mem e hx)) hpost

theorem mem_stripWs {c : Char} {cs : List Char} (h : c ∈ stripWs cs) : c ∈ cs := by
  rw [stripWs, List.mem_reverse] at h
  have h2 := (List.dropWhile_sublist _).mem h
  rw [List.mem_reverse] at h2
  exact (List.dropWhile_sublist _).mem h2

theorem mem_rstripChars {c : Char} {chars cs : List Char}
    (h : c ∈ rstripChars chars cs) : c ∈ cs := by
  rw [rstripChars, List.mem_reverse] at h
  have h2 := (List.dropWhile_sublist _).mem h
  rwa [List.mem_reverse] at h2

theorem sheetName₁_valid {url : List Char} {c : Char} (h : c ∈ sheetName₁ url) :
    ¬ c ∈ invalidSheetChars := by
  rw [sheetName₁] at h
  split at h
  · revert c
    decide
  · intro hc
    have := List.of_mem_filter (mem_stripWs h)
    simp [hc] at this

theorem sheetBase_valid {url : List Char} {c : Char} (h : c ∈ sheetBase url) :
    ¬ c ∈ invalidSheetChars := by
  rw [sheetBase] at h
  split at h
  · exact sheetName₁_valid ((List.take_sublist _ _).mem (mem_rstripChars h))
  · exact sheetName₁_valid h

theorem sheetBase_length (url : List Char) : (sheetBase url).length ≤ MAX_SHEET_NAME - 4 := by
  rw [sheetBase]
  split
  · calc (rstripChars [' ', '-'] ((sheetName₁ url).take (MAX_SHEET_NAME - 4))).length
        ≤ ((sheetName₁ url).take (MAX_SHEET_NAME - 4)).length := by
          rw [rstripChars, List.length_reverse]
          exact le_trans (List.Sublist.length_le (List.dropWhile_sublist _))
            (by rw [List.length_reverse])
      _ ≤ MAX_SHEET_NAME - 4 := by
          rw [List.length_take]
          exact min_le_left _ _
  · omega

theorem natCharsAux_digits :
    ∀ fuel n : Nat, ∀ c ∈ natCharsAux fuel n, ∃ m, m < 10 ∧ c = Char.ofNat (m + 48) := by
  intro fuel
  induction fuel with
  | zero => intro n c hc; simp [natCharsAux] at hc
  | succ fuel ih =>
    intro n c hc
    match n with
    | 0 => simp [natCharsAux] at hc
    | n + 1 =>
      rw [natCharsAux, List.mem_append] at hc
      rcases hc with hc | hc
      · exact ih _ c hc
      · rw [List.mem_singleton] at hc
        exact ⟨(n + 1) % 10, Nat.mod_lt _ (by omega), hc⟩

theorem digit_not_invalid {m : Nat} (hm : m < 10) :
    ¬ Char.ofNat (m + 48) ∈ invalidSheetChars := by
  interval_cases m <;> decide

theorem natCharsAux_length :
    ∀ fuel n d : Nat, n < 10 ^ d → (natCharsAux fuel n).length ≤ d := by
  intro fuel
  induction fuel with
  | zero => intro n d _; simp [natCharsAux]
  | succ fuel ih =>
    intro n d hn
    match n with
    | 0 => simp [natCharsAux]
    | n + 1 =>
      match d with
      | 0 => omega
      | d + 1 =>
        rw [natCharsAux, List.length_append, List.length_singleton]
        have : (n + 1) / 10 < 10 ^ d := by
          rw [Nat.div_lt_iff_lt_mul (by norm_num)]
          calc n + 1 < 10 ^ (d + 1) := hn
            _ = 10 ^ d * 10 := by ring
        exact Nat.add_le_add (ih _ d this) le_rfl

theorem natChars_length {n d : Nat} (hd : 1 ≤ d) (hn : n < 10 ^ d) :
    (natChars n).length ≤ d := by
  rw [natChars]
  split
  · simpa using hd
  · exact natCharsAux_length n n d hn

theorem collisionSuffix_length {n d : Nat} (hd : 1 ≤ d) (hn : n < 10 ^ d) :
    (collisionSuffix n).length ≤ 3 + d := by
  rw [collisionSuffix]
  simp only [List.length_cons, List.length_append, List.length_singleton, List.length_nil]
  have := natChars_length hd hn
  omega

theorem collisionSuffix_valid {n : Nat} {c : Char} (h : c ∈ collisionSuffix n) :
    ¬ c ∈ invalidSheetChars := by
  rw [collisionSuffix] at h
  rcases List.mem_cons.mp h with rfl | h
  · decide
  rcases List.mem_cons.mp h with rfl | h
  · decide
  rcases List.mem_append.mp h with h | h
  · rw [natChars] at h
    split at h
    · rw [List.mem_singleton] at h
      subst h
      decide
    · obtain ⟨m, hm, rfl⟩ := natCharsAux_digits _ _ c h
      exact digit_not_invalid hm
  · rw [List.mem_singleton] at h
    subst h
    decide

theorem urlToSheetName_valid (url : List Char) (seen : List (List Char × Nat))
    (hseen : ∀ p ∈ seen, p.2 < 10 ^ 26) :
    (∀ c ∈ (urlToSheetName url seen).1, ¬ c ∈ invalidSheetChars) ∧
      (urlToSheetName url seen).1.length ≤ MAX_SHEET_NAME := by
  have hM : MAX_SHEET_NAME = 31 := rfl
  cases hlk : lookupA seen (sheetBase url) with
  | some k =>
    simp only [urlToSheetName, hlk]
    have hk : k < 10 ^ 26 := hseen _ (lookupA_mem hlk)
    have hsl : (collisionSuffix (k + 1)).length ≤ 30 := by
      have h27 : k + 1 < 10 ^ 27 := by
        calc k + 1 ≤ 10 ^ 26 := hk
          _ < 10 ^ 27 := by norm_num
      have := @collisionSuffix_length (k + 1) 27 (by norm_num) h27
      omega
    constructor
    · intro c hc
      rcases List.mem_append.mp hc with hc | hc
      · refine @sheetBase_valid url _ ?_
        rw [pySliceTo] at hc
        split at hc <;> exact (List.take_sublist _ _).mem hc
      · exact collisionSuffix_valid hc
    · have hpos : (0 : Int) ≤ (MAX_SHEET_NAME : Int) - (collisionSuffix (k + 1)).length := by
        omega
      rw [List.length_append, pySliceTo, if_pos hpos, List.length_take]
      have htn : ((MAX_SHEET_NAME : Int) - (collisionSuffix (k + 1)).length).toNat =
          31 - (collisionSuffix (k + 1)).length := by
        omega
      omega
  | none =>
    simp only [urlToSheetName, hlk]
    constructor
    · intro c hc
      exact sheetBase_valid hc
    · have := sheetBase_length url
      omega

theorem filter_flatMap {α β : Type} (l : List α) (g : α → List β) (p : β → Bool) :
    (l.flatMap g).filter p = l.flatMap (fun x => (g x).filter p) := by
  induction l with
  | nil => rfl
  | cons x xs ih => simp [List.flatMap_cons, List.filter_append, ih]

theorem loadPerPageIssues_lookup (files : List IssueCsv)
    (overview : List (String × OverviewMeta)) (internal : List String) (u : String) :
    (lookupA (loadPerPageIssues files overview internal) u).getD [] =
      (sortFiles files).flatMap (fun f =>
        ((fileProductions overview internal f).filter (fun p => p.1 = u)).map Prod.snd) := by
  rw [loadPerPageIssues, groupByKeyA, groupFold_lookup_getD]
  simp only [lookupA, Option.getD_none, List.nil_append]
  rw [filter_flatMap, List.map_flatMap]

theorem urlRowsList_mem {adf : Option (List A11yRow)}
    {perPage : List (String × List FindingRow)} {u : String} {rows : List FindingRow} :
    (u, rows) ∈ urlRowsList adf perPage ↔
      u ∈ allUrls adf perPage ∧ rows = combinedRows adf perPage u ∧
        ¬ combinedRows adf perPage u = [] := by
  rw [urlRowsList, List.mem_filterMap]
  constructor
  · rintro ⟨a, ha, hf⟩
    by_cases he : (combinedRows adf perPage a).isEmpty
    · rw [if_pos he] at hf
      cases hf
    · rw [if_neg he] at hf
      cases hf
      exact ⟨ha, rfl, by simpa [List.isEmpty_iff] using he⟩
  · rintro ⟨ha, rfl, hne⟩
    refine ⟨u, ha, ?_⟩
    rw [if_neg (by simpa [List.isEmpty_iff] using hne)]

theorem filteredA11y_nil (a11y : Option (List A11yRow)) :
    filteredA11y a11y [] = a11y := by
  cases a11y <;> simp [filteredA11y]

theorem groupByKeyA_keys_mem {α β : Type} [DecidableEq α] (l : List (α × β)) (k : α) :
    k ∈ (groupByKeyA l).map Prod.fst ↔ k ∈ l.map Prod.fst := by
  constructor
  · intro h
    rcases List.mem_map.mp h with ⟨p, hp, rfl⟩
    cases p
    exact (groupByKeyA_mem hp).2
  · intro h
    by_contra hk
    have := (lookupA_none_iff.mpr hk)
    rw [groupByKeyA] at this
    exact ((groupFold_lookup_none l _ []).mp this).2 h

theorem groupByKeyA_lookup_ne_nil {α β : Type} [DecidableEq α] {l : List (α × β)} {k : α}
    (h : k ∈ l.map Prod.fst) : ¬ (lookupA (groupByKeyA l) k).getD [] = [] := by
  rw [groupByKeyA_lookup l k h]
  simp only [Option.getD_some]
  intro hnil
  rcases List.mem_map.mp h with ⟨p, hp, rfl⟩
  have hmem : p ∈ l.filter (fun q => decide (q.1 = p.1)) :=
    List.mem_filter.mpr ⟨hp, by simp⟩
  rw [List.map_eq_nil_iff] at hnil
  rw [hnil] at hmem
  cases hmem

theorem fileProductions_url_internal {overview : List (String × OverviewMeta)}
    {internal : List String} {f : IssueCsv} {p : String × FindingRow}
    (hp : p ∈ fileProductions overview internal f) (hne : ¬ internal = []) :
    p.1 ∈ internal := by
  rw [fileProductions] at hp
  split at hp
  · cases hp
  · split at hp
    · cases hp
    · split at hp
      · cases hp
      · rcases List.mem_filterMap.mp hp with ⟨cells, _, hf⟩
        split at hf
        · cases hf
        · rename_i hcond
          cases hf
          by_contra hm
          exact hcond ⟨hne, hm⟩

theorem perPage_keys_internal {files : List IssueCsv}
    {overview : List (String × OverviewMeta)} {internal : List String} {u : String}
    (hu : u ∈ (loadPerPageIssues files overview internal).map Prod.fst)
    (hne : ¬ internal = []) : u ∈ internal := by
  rw [loadPerPageIssues, groupByKeyA_keys_mem] at hu
  rcases List.mem_map.mp hu with ⟨p, hp, rfl⟩
  rcases List.mem_flatMap.mp hp with ⟨f, _, hpf⟩
  exact fileProductions_url_internal hpf hne

theorem allUrls_internal {a11y : Option (List A11yRow)} {files : List IssueCsv}
    {overview : List (String × OverviewMeta)} {internal : List String} {u : String}
    (hu : u ∈ allUrls (filteredA11y a11y internal)
      (loadPerPageIssues files overview internal))
    (hne : ¬ internal = []) : u ∈ internal := by
  rw [allUrls.eq_def] at hu
  rcases List.mem_append.mp (List.mem_dedup.mp hu) with hu | hu
  · match a11y with
    | none => simp [filteredA11y] at hu
    | some rows =>
      rw [filteredA11y, if_neg hne] at hu
      rcases List.mem_map.mp (List.mem_dedup.mp hu) with ⟨r, hr, rfl⟩
      exact of_decide_eq_true (List.mem_filter.mp hr).2
  · exact perPage_keys_internal hu hne

theorem buildPagesGo_shapes (data : List (String × List FindingRow)) :
    ∀ (gs : List (List (List String) × List String)) (seen : List (List Char × Nat)),
      (∀ s ∈ (buildPagesGo data gs seen).1, ∃ g ∈ gs, s.urls = g.2) ∧
      (∀ e ∈ (buildPagesGo data gs seen).2, ∃ g ∈ gs, e.url ∈ g.2) := by
  intro gs
  induction gs with
  | nil =>
    intro seen
    constructor <;> intro x hx <;> simp [buildPagesGo] at hx
  | cons g gs ih =>
    intro seen
    constructor
    · intro s hs
      simp only [buildPagesGo] at hs
      rcases List.mem_cons.mp hs with rfl | hs
      · exact ⟨g, List.mem_cons_self _ _, rfl⟩
      · obtain ⟨g', hg', hs'⟩ := (ih _).1 s hs
        exact ⟨g', List.mem_cons_of_mem _ hg', hs'⟩
    · intro e he
      simp only [buildPagesGo] at he
      rcases List.mem_append.mp he with he | he
      · rcases List.mem_map.mp he with ⟨u, hu, rfl⟩
        exact ⟨g, List.mem_cons_self _ _, hu⟩
      · obtain ⟨g', hg', he'⟩ := (ih _).2 e he
        exact ⟨g', List.mem_cons_of_mem _ hg', he'⟩

theorem mem_group_snd {α β : Type} [DecidableEq α] {pairs : List (α × β)}
    {g : α × List β} {u : β} (hg : g ∈ groupByKeyA pairs) (hu : u ∈ g.2) :
    u ∈ pairs.map Prod.snd := by
  cases g with
  | mk k vs =>
    have := (groupByKeyA_mem hg).1
    rw [this] at hu
    rcases List.mem_map.mp hu with ⟨q, hq, rfl⟩
    exact List.mem_map_of_mem _ (List.mem_of_mem_filter hq)

theorem buildPages_urls_sub (data : List (String × List FindingRow)) :
    (∀ s ∈ (buildPages data).1, ∀ u ∈ s.urls, u ∈ data.map Prod.fst) ∧
    (∀ e ∈ (buildPages data).2, e.url ∈ data.map Prod.fst) := by
  have hperm := (sortLe_perm (fun a b => strLE a.1 b.1) data).map Prod.fst
  have key : ∀ u : String,
      u ∈ ((sortLe (fun a b => strLE a.1 b.1) data).map
        (fun p => (fingerprint p.2, p.1))).map Prod.snd →
      u ∈ data.map Prod.fst := by
    intro u hu
    rw [List.map_map] at hu
    apply hperm.mem_iff.mp
    simpa using hu
  constructor
  · intro s hs u hu
    obtain ⟨g, hg, hsu⟩ := (buildPagesGo_shapes _ _ _).1 s hs
    rw [hsu] at hu
    exact key u (mem_group_snd hg hu)
  · intro e he
    obtain ⟨g, hg, heu⟩ := (buildPagesGo_shapes _ _ _).2 e he
    exact key e.url (mem_group_snd hg heu)

theorem a11yToRows_ne_nil {rows : List A11yRow} {u : String}
    (h : ∃ r ∈ rows, r.url = u) : ¬ a11yToRows rows u = [] := by
  obtain ⟨r, hr, hru⟩ := h
  rw [a11yToRows, List.map_eq_nil_iff]
  intro hnil
  have : r ∈ rows.filter (fun q => decide (q.url = u)) :=
    List.mem_filter.mpr ⟨hr, by simp [hru]⟩
  rw [hnil] at this
  cases this

theorem filter_eq_singleton_of_nodup {α : Type} {l : List α} {x : α} {p : α → Bool}
    (hnd : l.Nodup) (hx : x ∈ l) (hp : p x = true)
    (huniq : ∀ y ∈ l, p y = true → y = x) : l.filter p = [x] := by
  induction l with
  | nil => cases hx
  | cons a t ih =>
    rcases List.mem_cons.mp hx with rfl | hx
    · rw [List.filter_cons, if_pos hp]
      have ht : t.filter p = [] := by
        rw [List.filter_eq_nil_iff]
        intro y hy hpy
        rw [huniq y (List.mem_cons_of_mem _ hy) hpy] at hy
        exact (List.nodup_cons.mp hnd).1 hy
      rw [ht]
    · have hax : ¬ p a = true := by
        intro hpa
        rw [huniq a (List.mem_cons_self a t) hpa] at hnd
        exact (List.nodup_cons.mp hnd).1 hx
      rw [List.filter_cons, if_neg hax]
      exact ih (List.nodup_cons.mp hnd).2 hx
        (fun y hy hpy => huniq y (List.mem_cons_of_mem a hy) hpy)

theorem snd_nodup_fst_eq {α β : Type} {l : List (α × β)}
    (hnd : (l.map Prod.snd).Nodup) {a b : α} {c : β}
    (ha : (a, c) ∈ l) (hb : (b, c) ∈ l) : a = b := by
  induction l with
  | nil => cases ha
  | cons q t ih =>
    rw [List.map_cons, List.nodup_cons] at hnd
    rcases List.mem_cons.mp ha with ha0 | ha1
    · rcases List.mem_cons.mp hb with hb0 | hb1
      · exact (Prod.ext_iff.mp (ha0.trans hb0.symm)).1
      · exfalso
        apply hnd.1
        rw [← ha0]
        exact List.mem_map.mpr ⟨(b, c), hb1, rfl⟩
    · rcases List.mem_cons.mp hb with hb0 | hb1
      · exfalso
        apply hnd.1
        rw [← hb0]
        exact List.mem_map.mpr ⟨(a, c), ha1, rfl⟩
      · exact ih hnd.2 ha1 hb1

theorem strLE_refl (a : String) : strLE a a = true := charsLE_refl a.data

theorem headI_mem_of_ne_nil {l : List String} (h : ¬ l = []) : l.headI ∈ l := by
  cases l with
  | nil => exact absurd rfl h
  | cons a t => exact List.mem_cons_self a t

theorem pairwise_headI_le {l : List String}
    (hp : l.Pairwise (fun a b => strLE a b = true)) {u : String} (hu : u ∈ l) :
    strLE l.headI u = true := by
  cases l with
  | nil => cases hu
  | cons a t =>
    rcases List.mem_cons.mp hu with rfl | hu
    · exact strLE_refl u
    · exact List.rel_of_pairwise_cons hp hu

theorem two_le_length_of_two_mem {α : Type} {l : List α} {a b : α}
    (ha : a ∈ l) (hb : b ∈ l) (hne : ¬ a = b) : 2 ≤ l.length := by
  cases l with
  | nil => cases ha
  | cons x t =>
    cases t with
    | nil =>
      rw [List.mem_singleton] at ha hb
      exact absurd (ha.trans hb.symm) hne
    | cons y t2 => simp [Nat.succ_le_succ, Nat.le_add_left]

theorem buildPagesGo_group (data : List (String × List FindingRow))
    (g : List (List String) × List String) :
    ∀ (gs : List (List (List String) × List String)) (seen : List (List Char × Nat)),
      g ∈ gs →
      ∃ s : Sheet,
        s.urls = g.2 ∧ s.rep = g.2.headI ∧
        s.rows = (lookupA data g.2.headI).getD [] ∧
        (∀ u, u ∈ g.2 →
          gs.filter (fun q => decide (u ∈ q.2)) = [g] →
          (buildPagesGo data gs seen).1.filter (fun t => decide (u ∈ t.urls)) = [s]) ∧
        (∀ u, gs.filter (fun q => decide (u ∈ q.2)) = [g] →
          g.2.filter (fun x => decide (x = u)) = [u] →
          (buildPagesGo data gs seen).2.filter (fun e => decide (e.url = u)) =
            [⟨u, s.name, s.rows.countP (fun fr => fr.type = "Accessibility"),
              s.rows.countP (fun fr => fr.type = "Issue"),
              if 1 < g.2.length then some g.2.length else none⟩]) := by
  intro gs
  induction gs with
  | nil => intro seen hg; cases hg
  | cons g₀ gs ih =>
    intro seen hg
    by_cases hg0 : g₀ = g
    · subst hg0
      refine ⟨⟨⟨(urlToSheetName g₀.2.headI.data seen).1⟩, g₀.2.headI, g₀.2,
        (lookupA data g₀.2.headI).getD []⟩, rfl, rfl, rfl, ?_, ?_⟩
      · intro u hu hflt
        rw [List.filter_cons, if_pos (decide_eq_true hu)] at hflt
        have htl : gs.filter (fun q => decide (u ∈ q.2)) = [] :=
          (List.cons.injEq _ _ _ _).mp hflt |>.2
        simp only [buildPagesGo]
        rw [List.filter_cons, if_pos (by simpa using hu)]
        have hrest : ((buildPagesGo data gs
            (urlToSheetName g₀.2.headI.data seen).2).1.filter
              (fun t => decide (u ∈ t.urls))) = [] := by
          rw [List.filter_eq_nil_iff]
          intro s hs hus
          obtain ⟨g', hg', hsu⟩ := (buildPagesGo_shapes data gs _).1 s hs
          have : ¬ u ∈ g'.2 := by
            have := List.filter_eq_nil_iff.mp htl g' hg'
            simpa using this
          rw [hsu] at hus
          exact this (by simpa using hus)
        rw [hrest]
      · intro u hflt huniq
        have hu : u ∈ g₀.2 := by
          have : u ∈ g₀.2.filter (fun x => decide (x = u)) := by
            rw [huniq]
            exact List.mem_singleton.mpr rfl
          exact List.mem_of_mem_filter this
        rw [List.filter_cons, if_pos (decide_eq_true hu)] at hflt
        have htl : gs.filter (fun q => decide (u ∈ q.2)) = [] :=
          (List.cons.injEq _ _ _ _).mp hflt |>.2
        simp only [buildPagesGo]
        rw [List.filter_append]
        have hidx : (g₀.2.map (fun v =>
            ({ url := v, sheet := ⟨(urlToSheetName g₀.2.headI.data seen).1⟩,
               a11yCount := ((lookupA data g₀.2.headI).getD []).countP
                 (fun fr => fr.type = "Accessibility"),
               issueCount := ((lookupA data g₀.2.headI).getD []).countP
                 (fun fr => fr.type = "Issue"),
               duplicates := if 1 < g₀.2.length then some g₀.2.length else none } :
                IndexRow))).filter (fun e => decide (e.url = u)) =
            (g₀.2.filter (fun x => decide (x = u))).map (fun v =>
              ({ url := v, sheet := ⟨(urlToSheetName g₀.2.headI.data seen).1⟩,
                 a11yCount := ((lookupA data g₀.2.headI).getD []).countP
                   (fun fr => fr.type = "Accessibility"),
                 issueCount := ((lookupA data g₀.2.headI).getD []).countP
                   (fun fr => fr.type = "Issue"),
                 duplicates := if 1 < g₀.2.length then some g₀.2.length else none } :
                  IndexRow)) := by
          rw [List.filter_map]
          rfl
        have hrest : ((buildPagesGo data gs
            (urlToSheetName g₀.2.headI.data seen).2).2.filter
              (fun e => decide (e.url = u))) = [] := by
          rw [List.filter_eq_nil_iff]
          intro e he heu
          obtain ⟨g', hg', heu'⟩ := (buildPagesGo_shapes data gs _).2 e he
          have : ¬ u ∈ g'.2 := by
            have := List.filter_eq_nil_iff.mp htl g' hg'
            simpa using this
          rw [show e.url = u from by simpa using heu] at heu'
          exact this heu'
        rw [hidx, huniq, hrest, List.map_cons, List.map_nil]
        rfl
    · have hg' : g ∈ gs := by
        rcases List.mem_cons.mp hg with h | h
        · exact absurd h.symm hg0
        · exact h
      obtain ⟨s, hsurls, hsrep, hsrows, hsheet, hindex⟩ :=
        ih (urlToSheetName g₀.2.headI.data seen).2 hg'
      refine ⟨s, hsurls, hsrep, hsrows, ?_, ?_⟩
      · intro u hu hflt
        have hu0 : ¬ u ∈ g₀.2 := by
          intro hu0
          rw [List.filter_cons, if_pos (decide_eq_true hu0)] at hflt
          exact hg0 ((List.cons.injEq _ _ _ _).mp hflt).1
        rw [List.filter_cons, if_neg (by simpa using hu0)] at hflt
        simp only [buildPagesGo]
        rw [List.filter_cons, if_neg (by simpa using hu0)]
        exact hsheet u hu hflt
      · intro u hflt huniq
        have hu : u ∈ g.2 := by
          have : u ∈ g.2.filter (fun x => decide (x = u)) := by
            rw [huniq]
            exact List.mem_singleton.mpr rfl
          exact List.mem_of_mem_filter this
        have hu0 : ¬ u ∈ g₀.2 := by
          intro hu0
          rw [List.filter_cons, if_pos (decide_eq_true hu0)] at hflt
          exact hg0 ((List.cons.injEq _ _ _ _).mp hflt).1
        rw [List.filter_cons, if_neg (by simpa using hu0)] at hflt
        simp only [buildPagesGo]
        rw [List.filter_append]
        have hidx : (g₀.2.map (fun v =>
            ({ url := v, sheet := ⟨(urlToSheetName g₀.2.headI.data seen).1⟩,
               a11yCount := ((lookupA data g₀.2.headI).getD []).countP
                 (fun fr => fr.type = "Accessibility"),
               issueCount := ((lookupA data g₀.2.headI).getD []).countP
                 (fun fr => fr.type = "Issue"),
               duplicates := if 1 < g₀.2.length then some g₀.2.length else none } :
                IndexRow))).filter (fun e => decide (e.url = u)) = [] := by
          rw [List.filter_eq_nil_iff]
          intro e he heu
          rcases List.mem_map.mp he with ⟨v, hv, rfl⟩
          have hvu : v = u := by simpa using heu
          exact hu0 (hvu ▸ hv)
        rw [hidx, hindex u hflt huniq]
        rfl

end Lemmas

/-! ## Claim theorems -/

/-- Claim C4: URL normalization is idempotent and scheme-collapsing — a URL
already beginning with "https://" is returned unchanged, and normalizing
"http://" ++ path equals normalizing "https://" ++ path. -/
theorem normalizeUrl_idempotent_collapsing (s p : List Char) :
    ("https://".toList <+: s → normalizeUrl s = s) ∧
      normalizeUrl ("http://".toList ++ p) = normalizeUrl ("https://".toList ++ p) := by
  constructor
  · intro h
    obtain ⟨t, rfl⟩ := h
    exact normalizeUrl_https t
  · rw [normalizeUrl_http p, normalizeUrl_https p]

/-- Witness for C4 at a concrete URL and path. -/
theorem normalizeUrl_idempotent_collapsing_witness :
    ("https://".toList <+: "https://example.com/a".toList) ∧
      normalizeUrl "https://example.com/a".toList = "https://example.com/a".toList ∧
      normalizeUrl ("http://".toList ++ "example.com/a".toList) =
        normalizeUrl ("https://".toList ++ "example.com/a".toList) := by
  have h := normalizeUrl_idempotent_collapsing "https://example.com/a".toList
    "example.com/a".toList
  exact ⟨by decide, h.1 (by decide), h.2⟩

/-- Claim C10: normalization rewrites only an exact lowercase "http://"
prefix — any string not starting with it (uppercase schemes, non-leading
occurrences) is returned unchanged, and on a match only the leading
occurrence is replaced, the tail being kept verbatim. -/
theorem normalizeUrl_exact_leading_only (s t : List Char) :
    (¬ "http://".toList <+: s → normalizeUrl s = s) ∧
      normalizeUrl ("http://".toList ++ t) = "https://".toList ++ t :=
  ⟨normalizeUrl_not_http s, normalizeUrl_http t⟩

/-- Witness for C10: an uppercase scheme and a non-leading occurrence are
untouched, and a leading occurrence is replaced with the tail (itself
containing "http://") kept verbatim. -/
theorem normalizeUrl_exact_leading_only_witness :
    normalizeUrl "HTTP://example.com".toList = "HTTP://example.com".toList ∧
      normalizeUrl "https://a.com/?u=http://b".toList =
        "https://a.com/?u=http://b".toList ∧
      normalizeUrl ("http://".toList ++ "a.com/?u=http://b".toList) =
        "https://".toList ++ "a.com/?u=http://b".toList := by
  refine ⟨?_, ?_, ?_⟩
  · exact (normalizeUrl_exact_leading_only "HTTP://example.com".toList []).1 (by decide)
  · exact (normalizeUrl_exact_leading_only "https://a.com/?u=http://b".toList []).1
      (by decide)
  · exact (normalizeUrl_exact_leading_only [] "a.com/?u=http://b".toList).2

/-- Claim C2: the fingerprint is invariant under permutation of the
finding-row list, so two pages with the same multiset of rows share a
fingerprint regardless of internal row order. -/
theorem fingerprint_order_independent (rows₁ rows₂ : List FindingRow)
    (h : rows₁.Perm rows₂) : fingerprint rows₁ = fingerprint rows₂ :=
  sortLe_tupLE_eq_of_perm (h.map toSortedItems)

/-- Witness for C2 on a concrete two-row transposition. -/
theorem fingerprint_order_independent_witness :
    ([exRowA, exRowB].Perm [exRowB, exRowA]) ∧
      fingerprint [exRowA, exRowB] = fingerprint [exRowB, exRowA] :=
  ⟨List.Perm.swap exRowB exRowA [],
    fingerprint_order_independent [exRowA, exRowB] [exRowB, exRowA]
      (List.Perm.swap exRowB exRowA [])⟩

/-- Claim C3: with no exact case-insensitive catalog match, a derived
filename whose word overlap with every non-accessibility catalog key is at
most 1 gets empty enrichment metadata, while a best-overlapping
non-accessibility entry sharing at least 2 words (strictly beating all
earlier eligible entries, and at least tying all later ones) supplies its
fields; ties keep the first-seen best. -/
theorem matchOverview_threshold (fn : String) (overview : List (String × OverviewMeta))
    (hex : lookupA overview (pyLowerS fn) = none) :
    ((∀ kv ∈ overview, ¬ "accessibility:".toList.isPrefixOf kv.1.data = true →
        interCard (wordSet (pyLowerS fn)) (wordSet kv.1) ≤ 1) →
      matchOverview fn overview = ⟨fn, none⟩) ∧
    (∀ pre kv post, overview = pre ++ kv :: post →
      ¬ "accessibility:".toList.isPrefixOf kv.1.data = true →
      2 ≤ interCard (wordSet (pyLowerS fn)) (wordSet kv.1) →
      (∀ e ∈ pre, ¬ "accessibility:".toList.isPrefixOf e.1.data = true →
        interCard (wordSet (pyLowerS fn)) (wordSet e.1) <
          interCard (wordSet (pyLowerS fn)) (wordSet kv.1)) →
      (∀ e ∈ post, ¬ "accessibility:".toList.isPrefixOf e.1.data = true →
        interCard (wordSet (pyLowerS fn)) (wordSet e.1) ≤
          interCard (wordSet (pyLowerS fn)) (wordSet kv.1)) →
      matchOverview fn overview = ⟨pyTitleS kv.1, some kv.2⟩) := by
  constructor
  · intro h
    rw [matchOverview, hex, bestMatchGo_skip _ overview (0, none)
      (fun kv hkv helig => Or.inl (by have := h kv hkv helig; omega))]
  · intro pre kv post hdec hkv hs hpre hpost
    rw [matchOverview, hex, hdec,
      bestMatchGo_select (wordSet (pyLowerS fn)) kv pre post (0, none) hkv hs
        (by omega) hpre hpost]

/-- Witness for C3: both branches at a concrete catalog — a single shared
word is not enriched, and a two-or-more-word overlap takes the fields of
the best entry (the accessibility-prefixed entry being skipped). -/
theorem matchOverview_threshold_witness :
    matchOverview "Broken Alt" [("missing alt text attribute", exMeta2)] =
      ⟨"Broken Alt", none⟩ ∧
    matchOverview "Missing Alt Text" exOverview =
      ⟨pyTitleS "missing alt text attribute", some exMeta2⟩ := by
  constructor
  · exact (matchOverview_threshold "Broken Alt" [("missing alt text attribute", exMeta2)]
      (by decide)).1 (by decide)
  · exact (matchOverview_threshold "Missing Alt Text" exOverview (by decide)).2
      [("accessibility: images missing alt", exMeta1)]
      ("missing alt text attribute", exMeta2)
      [("missing alt", exMeta3)] rfl (by decide) (by decide) (by decide) (by decide)

/-- Counterexample to claim C8 as stated: processing the representative
URLs e.com/page (1), a.com/page, b.com/page against one shared seen-names
map returns "page (1)" for the first URL and again "page (1)" for the
third (the collision suffix for the repeated base "page"), so a returned
name can equal a previously returned one. -/
theorem urlToSheetName_not_injective :
    sheetNamesOf ["https://e.com/page (1)".toList, "https://a.com/page".toList,
        "https://b.com/page".toList] =
      ["page (1)".toList, "page".toList, "page (1)".toList] ∧
    ¬ (sheetNamesOf ["https://e.com/page (1)".toList, "https://a.com/page".toList,
        "https://b.com/page".toList]).Nodup := by
  exact ⟨by decide, by decide⟩

/-- Claim C8 as amended: every name `_url_to_sheet_name` returns contains
no characters illegal in sheet names and has length at most 31 (for seen
counters below 10^26, which covers every reachable state); repeated bases
get a " (n)" suffix, but the suffixed name is not guaranteed distinct from
earlier names of other bases. -/
theorem urlToSheetName_invariants (url : List Char) (seen : List (List Char × Nat))
    (hseen : ∀ p ∈ seen, p.2 < 10 ^ 26) :
    (∀ c ∈ (urlToSheetName url seen).1, ¬ c ∈ invalidSheetChars) ∧
      (urlToSheetName url seen).1.length ≤ MAX_SHEET_NAME :=
  urlToSheetName_valid url seen hseen

/-- Witness for the amended C8 at a concrete URL (which exercises both the
illegal-character stripping and a collision) and a concrete seen map. -/
theorem urlToSheetName_invariants_witness :
    (∀ p ∈ [("ab".toList, (3 : Nat))], p.2 < 10 ^ 26) ∧
      ((∀ c ∈ (urlToSheetName "https://e.com/a*b[1]:c".toList
          [("ab".toList, (3 : Nat))]).1, ¬ c ∈ invalidSheetChars) ∧
        (urlToSheetName "https://e.com/a*b[1]:c".toList
          [("ab".toList, (3 : Nat))]).1.length ≤ MAX_SHEET_NAME) :=
  ⟨by decide,
    urlToSheetName_invariants "https://e.com/a*b[1]:c".toList
      [("ab".toList, (3 : Nat))] (by decide)⟩

/-- Claim C1 is violated by the code: the Pages sheet is created
unconditionally (report.py line 483) before the zero-sheet check at line
526, so on an export directory with no recognizable CSVs at all the check
never fires, no error is raised and a workbook containing only an empty
Pages sheet is saved; more generally `generate_report` saves a workbook on
every input. -/
theorem generateReport_empty_still_saves :
    generateReport ExportData.empty = Except.ok ⟨["Pages"], [], []⟩ ∧
      ∀ d : ExportData, ∃ r, generateReport d = Except.ok r := by
  constructor
  · rfl
  · intro d
    simp only [generateReport]
    rw [if_neg (by simp)]
    exact ⟨_, rfl⟩

/-- Claim C7: the combined row list of every URL in the per-page data is
its accessibility rows first (in accessibility-source order, which is what
`a11yToRows` preserves) followed by its catalog-issue rows in the
filename-lexicographic order the per-issue CSVs were processed, and a URL
whose combined row list is empty is omitted from the per-page data. -/
theorem page_rows_composition (adf : Option (List A11yRow)) (files : List IssueCsv)
    (overview : List (String × OverviewMeta)) (internal : List String) :
    (∀ u rows, (u, rows) ∈ urlRowsList adf (loadPerPageIssues files overview internal) →
      rows = (match adf with | some t => a11yToRows t u | none => []) ++
        (sortFiles files).flatMap (fun f =>
          ((fileProductions overview internal f).filter (fun p => p.1 = u)).map
            Prod.snd)) ∧
    (∀ u, combinedRows adf (loadPerPageIssues files overview internal) u = [] →
      ¬ u ∈ (urlRowsList adf (loadPerPageIssues files overview internal)).map
        Prod.fst) := by
  constructor
  · intro u rows h
    obtain ⟨-, hrw, -⟩ := urlRowsList_mem.mp h
    rw [hrw, combinedRows.eq_def, loadPerPageIssues_lookup]
  · intro u hc hm
    rcases List.mem_map.mp hm with ⟨p, hp, rfl⟩
    cases p with
    | mk v rows =>
      obtain ⟨-, -, hne⟩ := urlRowsList_mem.mp hp
      exact hne hc

/-- Witness for C7 at a concrete accessibility table and one per-issue
CSV. -/
theorem page_rows_composition_witness :
    combinedRows (some exA11yRows) (loadPerPageIssues [exIssueFile] [] [])
        "https://x.com/a" =
      a11yToRows exA11yRows "https://x.com/a" ++
        (sortFiles [exIssueFile]).flatMap (fun f =>
          ((fileProductions [] [] f).filter
            (fun p => p.1 = "https://x.com/a")).map Prod.snd) :=
  (page_rows_composition (some exA11yRows) [exIssueFile] [] []).1
    "https://x.com/a" _ (by decide)

/-- Claim C9: with a missing or empty internal-page inventory the
internal-page restriction is disabled rather than excluding everything —
the accessibility table is not filtered at all, and every URL appearing in
the accessibility table or among the loaded per-issue URLs is included in
the per-page data with at least one finding, without any membership
check. -/
theorem internal_disabled (inv : Option (List InvRow)) (a11y : Option (List A11yRow))
    (files : List IssueCsv) (overview : List (String × OverviewMeta))
    (hint : loadInternalUrls inv = []) :
    filteredA11y a11y (loadInternalUrls inv) = a11y ∧
    (∀ u, u ∈ allUrls (filteredA11y a11y (loadInternalUrls inv))
        (loadPerPageIssues files overview (loadInternalUrls inv)) →
      ∃ rows, ¬ rows = [] ∧
        (u, rows) ∈ urlRowsList (filteredA11y a11y (loadInternalUrls inv))
          (loadPerPageIssues files overview (loadInternalUrls inv))) := by
  rw [hint]
  refine ⟨filteredA11y_nil a11y, ?_⟩
  intro u hu
  have hne : ¬ combinedRows (filteredA11y a11y [])
      (loadPerPageIssues files overview []) u = [] := by
    have hu' := hu
    rw [allUrls.eq_def] at hu'
    rw [combinedRows.eq_def]
    intro hnil
    rcases List.append_eq_nil.mp hnil with ⟨ha, hb⟩
    rcases List.mem_append.mp (List.mem_dedup.mp hu') with hm | hm
    · match a11y, hm, ha with
      | none, hm, ha => cases hm
      | some rows, hm, ha =>
        rw [filteredA11y_nil (some rows)] at hm ha
        rcases List.mem_map.mp (List.mem_dedup.mp hm) with ⟨r, hr, rfl⟩
        exact a11yToRows_ne_nil ⟨r, hr, rfl⟩ ha
    · rw [loadPerPageIssues, groupByKeyA_keys_mem] at hm
      exact groupByKeyA_lookup_ne_nil hm hb
  exact ⟨_, hne, urlRowsList_mem.mpr ⟨hu, rfl, hne⟩⟩

/-- Witness for C9: a missing inventory CSV leaves the accessibility table
unfiltered and keeps a page found only there. -/
theorem internal_disabled_witness :
    filteredA11y (some exA11yRows) (loadInternalUrls none) = some exA11yRows ∧
      ∃ rows, ¬ rows = [] ∧
        ("https://x.com/a", rows) ∈ urlRowsList
          (filteredA11y (some exA11yRows) (loadInternalUrls none))
          (loadPerPageIssues [] [] (loadInternalUrls none)) :=
  ⟨(internal_disabled none (some exA11yRows) [] [] rfl).1,
    (internal_disabled none (some exA11yRows) [] [] rfl).2 "https://x.com/a" (by decide)⟩

/-- Counterexample to claim C5 as stated: with the internal-page inventory
missing, the internal set is empty, a URL from the accessibility table is
vacuously absent from the inventory, and yet it appears both in a per-page
sheet and in the Pages index. -/
theorem internal_filter_counterexample :
    reportInternal exExportNoInv = [] ∧
      ¬ "https://y.com/b" ∈ reportInternal exExportNoInv ∧
      (reportPages exExportNoInv).2.map IndexRow.url =
        ["https://x.com/a", "https://y.com/b"] ∧
      (reportPages exExportNoInv).1.map Sheet.urls =
        [["https://x.com/a", "https://y.com/b"]] :=
  ⟨rfl, by decide, by decide, by decide⟩

/-- Claim C5 as amended: when the internal-page set is nonempty, every URL
keyed in the per-page data is a member of the internal set and has at
least one finding, and a URL outside the internal set (in particular one
absent from the inventory or one all of whose inventory rows are non-HTML
or asset-extension rows, which `loadInternalUrls` excludes) appears in no
per-page sheet and in no Pages-index row. -/
theorem internal_filter_enforced (d : ExportData) (hne : ¬ reportInternal d = []) :
    (∀ p ∈ reportUrlRows d, p.1 ∈ reportInternal d ∧ ¬ p.2 = []) ∧
    (∀ u, ¬ u ∈ reportInternal d →
      (∀ s ∈ (reportPages d).1, ¬ u ∈ s.urls) ∧
        (∀ e ∈ (reportPages d).2, ¬ e.url = u)) := by
  have h1 : ∀ p ∈ reportUrlRows d, p.1 ∈ reportInternal d ∧ ¬ p.2 = [] := by
    intro p hp
    cases p with
    | mk u rows =>
      obtain ⟨hall, hrw, hnem⟩ := urlRowsList_mem.mp hp
      exact ⟨allUrls_internal hall hne, by rw [hrw]; exact hnem⟩
  refine ⟨h1, ?_⟩
  intro u hu
  have hkey : ¬ u ∈ (reportUrlRows d).map Prod.fst := by
    intro hm
    rcases List.mem_map.mp hm with ⟨p, hp, rfl⟩
    exact hu (h1 p hp).1
  constructor
  · intro s hs hus
    exact hkey ((buildPages_urls_sub _).1 s hs u hus)
  · intro e he heu
    exact hkey (heu ▸ (buildPages_urls_sub _).2 e he)

/-- Witness for the amended C5: with an inventory listing only x.com/a,
the external page y.com/b is excluded everywhere. -/
theorem internal_filter_enforced_witness :
    (¬ reportInternal exExportInv = []) ∧
      ((∀ p ∈ reportUrlRows exExportInv,
          p.1 ∈ reportInternal exExportInv ∧ ¬ p.2 = []) ∧
        (∀ u, ¬ u ∈ reportInternal exExportInv →
          (∀ s ∈ (reportPages exExportInv).1, ¬ u ∈ s.urls) ∧
            (∀ e ∈ (reportPages exExportInv).2, ¬ e.url = u))) :=
  ⟨by decide, internal_filter_enforced exExportInv (by decide)⟩

/-- Claim C6: two distinct URLs whose combined finding lists have equal
fingerprints share exactly one per-page sheet; each gets its own
Pages-index row pointing at that shared sheet with the same Duplicates
value equal to the group size; and the representative whose name the sheet
takes is the first URL of the group in the sorted URL order (i.e. minimal
in the model string order `strLE`). -/
theorem dedup_shared_sheet (data : List (String × List FindingRow))
    (u₁ u₂ : String) (r₁ r₂ : List FindingRow)
    (hnd : (data.map Prod.fst).Nodup)
    (h₁ : (u₁, r₁) ∈ data) (h₂ : (u₂, r₂) ∈ data)
    (hne : ¬ u₁ = u₂) (hfp : fingerprint r₁ = fingerprint r₂) :
    ∃ s : Sheet,
      (buildPages data).1.filter (fun t => decide (u₁ ∈ t.urls)) = [s] ∧
      (buildPages data).1.filter (fun t => decide (u₂ ∈ t.urls)) = [s] ∧
      u₁ ∈ s.urls ∧ u₂ ∈ s.urls ∧ 2 ≤ s.urls.length ∧
      s.rep ∈ s.urls ∧ (∀ u ∈ s.urls, strLE s.rep u = true) ∧
      (buildPages data).2.filter (fun e => decide (e.url = u₁)) =
        [⟨u₁, s.name, s.rows.countP (fun fr => fr.type = "Accessibility"),
          s.rows.countP (fun fr => fr.type = "Issue"), some s.urls.length⟩] ∧
      (buildPages data).2.filter (fun e => decide (e.url = u₂)) =
        [⟨u₂, s.name, s.rows.countP (fun fr => fr.type = "Accessibility"),
          s.rows.countP (fun fr => fr.type = "Issue"), some s.urls.length⟩] := by
  have hsortperm := sortLe_perm (fun a b => strLE a.1 b.1) data
  have hs₁ : (u₁, r₁) ∈ sortLe (fun a b => strLE a.1 b.1) data :=
    hsortperm.mem_iff.mpr h₁
  have hs₂ : (u₂, r₂) ∈ sortLe (fun a b => strLE a.1 b.1) data :=
    hsortperm.mem_iff.mpr h₂
  have hpair₁ : (fingerprint r₁, u₁) ∈ (sortLe (fun a b => strLE a.1 b.1) data).map
      (fun p => (fingerprint p.2, p.1)) :=
    List.mem_map.mpr ⟨(u₁, r₁), hs₁, rfl⟩
  have hpair₂ : (fingerprint r₁, u₂) ∈ (sortLe (fun a b => strLE a.1 b.1) data).map
      (fun p => (fingerprint p.2, p.1)) :=
    List.mem_map.mpr ⟨(u₂, r₂), hs₂, by rw [← hfp]⟩
  have hkeys : ((sortLe (fun a b => strLE a.1 b.1) data).map
      (fun p => (fingerprint p.2, p.1))).map Prod.snd =
      (sortLe (fun a b => strLE a.1 b.1) data).map Prod.fst := by
    rw [List.map_map]
    rfl
  have hnd_snd : (((sortLe (fun a b => strLE a.1 b.1) data).map
      (fun p => (fingerprint p.2, p.1))).map Prod.snd).Nodup := by
    rw [hkeys]
    exact (hsortperm.map Prod.fst).nodup_iff.mpr hnd
  have hfpk : fingerprint r₁ ∈ ((sortLe (fun a b => strLE a.1 b.1) data).map
      (fun p => (fingerprint p.2, p.1))).map Prod.fst :=
    List.mem_map.mpr ⟨(fingerprint r₁, u₁), hpair₁, rfl⟩
  have hlook := groupByKeyA_lookup _ _ hfpk
  have hg_mem := lookupA_mem hlook
  set pairs := (sortLe (fun a b => strLE a.1 b.1) data).map
    (fun p => (fingerprint p.2, p.1)) with hpairs
  set vs := (pairs.filter (fun q => q.1 = fingerprint r₁)).map Prod.snd with hvs
  have hu₁vs : u₁ ∈ vs := by
    rw [hvs]
    exact List.mem_map.mpr ⟨(fingerprint r₁, u₁),
      List.mem_filter.mpr ⟨hpair₁, by simp⟩, rfl⟩
  have hu₂vs : u₂ ∈ vs := by
    rw [hvs]
    exact List.mem_map.mpr ⟨(fingerprint r₁, u₂),
      List.mem_filter.mpr ⟨hpair₂, by simp⟩, rfl⟩
  have hvs_nodup : vs.Nodup := by
    rw [hvs]
    exact hnd_snd.sublist ((List.filter_sublist pairs).map Prod.snd)
  have huniq_g : ∀ g' ∈ groupByKeyA pairs, u₁ ∈ g'.2 →
      g' = (fingerprint r₁, vs) := by
    intro g' hg' hu
    cases g' with
    | mk k' vs' =>
      have hv' := (groupByKeyA_mem hg').1
      rw [hv'] at hu
      rcases List.mem_map.mp hu with ⟨q, hq, hq2⟩
      have hqp := List.mem_of_mem_filter hq
      have hq1 : q.1 = k' := by
        have := (List.mem_filter.mp hq).2
        simpa using this
      have hkeq : k' = fingerprint r₁ := by
        have hqin : (k', u₁) ∈ pairs := by
          have : q = (k', u₁) := by
            cases q
            cases hq1
            cases hq2
            rfl
          rw [← this]
          exact hqp
        exact snd_nodup_fst_eq hnd_snd hqin hpair₁
      subst hkeq
      rw [hv']
  have hgroups_nodup : (groupByKeyA pairs).Nodup :=
    (groupByKeyA_keys_nodup pairs).of_map
  have hflt₁ : (groupByKeyA pairs).filter
      (fun q => decide (u₁ ∈ q.2)) = [(fingerprint r₁, vs)] :=
    filter_eq_singleton_of_nodup hgroups_nodup hg_mem (decide_eq_true hu₁vs) (by
      intro y hy hpy
      exact huniq_g y hy (of_decide_eq_true hpy))
  have huniq_g₂ : ∀ g' ∈ groupByKeyA pairs, u₂ ∈ g'.2 →
      g' = (fingerprint r₁, vs) := by
    intro g' hg' hu
    cases g' with
    | mk k' vs' =>
      have hv' := (groupByKeyA_mem hg').1
      rw [hv'] at hu
      rcases List.mem_map.mp hu with ⟨q, hq, hq2⟩
      have hqp := List.mem_of_mem_filter hq
      have hq1 : q.1 = k' := by
        have := (List.mem_filter.mp hq).2
        simpa using this
      have hkeq : k' = fingerprint r₁ := by
        have hqin : (k', u₂) ∈ pairs := by
          have : q = (k', u₂) := by
            cases q
            cases hq1
            cases hq2
            rfl
          rw [← this]
          exact hqp
        exact snd_nodup_fst_eq hnd_snd hqin hpair₂
      subst hkeq
      rw [hv']
  have hflt₂ : (groupByKeyA pairs).filter
      (fun q => decide (u₂ ∈ q.2)) = [(fingerprint r₁, vs)] :=
    filter_eq_singleton_of_nodup hgroups_nodup hg_mem (decide_eq_true hu₂vs) (by
      intro y hy hpy
      exact huniq_g₂ y hy (of_decide_eq_true hpy))
  have huniq₁ : vs.filter (fun x => decide (x = u₁)) = [u₁] :=
    filter_eq_singleton_of_nodup hvs_nodup hu₁vs (by simp)
      (fun y _ hpy => of_decide_eq_true hpy)
  have huniq₂ : vs.filter (fun x => decide (x = u₂)) = [u₂] :=
    filter_eq_singleton_of_nodup hvs_nodup hu₂vs (by simp)
      (fun y _ hpy => of_decide_eq_true hpy)
  obtain ⟨s, hsurls, hsrep, hsrows, hsheet, hindex⟩ :=
    buildPagesGo_group (sortLe (fun a b => strLE a.1 b.1) data)
      (fingerprint r₁, vs) (groupByKeyA pairs) [] hg_mem
  have hlen : 2 ≤ vs.length := two_le_length_of_two_mem hu₁vs hu₂vs hne
  have hvs_pw : vs.Pairwise (fun a b => strLE a b = true) := by
    have hp0 : (sortLe (fun a b => strLE a.1 b.1) data).Pairwise
        (fun p q => strLE p.1 q.1 = true) :=
      @sortLe_pairwise (String × List FindingRow)
        (fun a b => strLE a.1 b.1)
        (fun a b => charsLE_total a.1.data b.1.data)
        (fun a b c => charsLE_trans a.1.data b.1.data c.1.data) data
    have hp1 : pairs.Pairwise (fun p q => strLE p.2 q.2 = true) := by
      rw [hpairs]
      exact hp0.map _ (fun a b h => h)
    have hp2 : (pairs.filter (fun q => decide (q.1 = fingerprint r₁))).Pairwise
        (fun p q => strLE p.2 q.2 = true) :=
      hp1.sublist (List.filter_sublist pairs)
    rw [hvs]
    exact hp2.map _ (fun a b h => h)
  have hifl : (if 1 < vs.length then some vs.length else none) = some vs.length :=
    if_pos (by omega)
  refine ⟨s, ?_, ?_, ?_, ?_, ?_, ?_, ?_, ?_, ?_⟩
  · exact hsheet u₁ hu₁vs hflt₁
  · exact hsheet u₂ hu₂vs hflt₂
  · rw [hsurls]; exact hu₁vs
  · rw [hsurls]; exact hu₂vs
  · rw [hsurls]; exact hlen
  · rw [hsurls, hsrep]
    show vs.headI ∈ vs
    exact headI_mem_of_ne_nil (fun hnil => by rw [hnil] at hu₁vs; cases hu₁vs)
  · intro u hu
    rw [hsurls] at hu
    rw [hsrep]
    show strLE vs.headI u = true
    exact pairwise_headI_le hvs_pw hu
  · have h := hindex u₁ hflt₁ huniq₁
    rw [hifl] at h
    rw [hsurls]
    exact h
  · have h := hindex u₂ hflt₂ huniq₂
    rw [hifl] at h
    rw [hsurls]
    exact h

/-- Witness for C6 on two concrete pages with the same single finding. -/
theorem dedup_shared_sheet_witness :
    ∃ s : Sheet,
      (buildPages exDataC6).1.filter
        (fun t => decide ("https://b.com/x" ∈ t.urls)) = [s] ∧
      (buildPages exDataC6).1.filter
        (fun t => decide ("https://a.com/y" ∈ t.urls)) = [s] ∧
      "https://b.com/x" ∈ s.urls ∧ "https://a.com/y" ∈ s.urls ∧
      2 ≤ s.urls.length ∧
      s.rep ∈ s.urls ∧ (∀ u ∈ s.urls, strLE s.rep u = true) ∧
      (buildPages exDataC6).2.filter
        (fun e => decide (e.url = "https://b.com/x")) =
        [⟨"https://b.com/x", s.name,
          s.rows.countP (fun fr => fr.type = "Accessibility"),
          s.rows.countP (fun fr => fr.type = "Issue"), some s.urls.length⟩] ∧
      (buildPages exDataC6).2.filter
        (fun e => decide (e.url = "https://a.com/y")) =
        [⟨"https://a.com/y", s.name,
          s.rows.countP (fun fr => fr.type = "Accessibility"),
          s.rows.countP (fun fr => fr.type = "Issue"), some s.urls.length⟩] :=
  dedup_shared_sheet exDataC6 "https://b.com/x" "https://a.com/y" [exRowA] [exRowA]
    (by decide) (by decide) (by decide) (by decide) rfl

end SFReport
